import Mathlib

/-!
# Minesweeper core (`assets/js/script.js`)

A shallow embedding of the game logic of `script.js`: the module-level variables
(`rows`, `cols`, `totalMines`, `board`, `gameOver`, `gameWon`, `flagsPlaced`,
`tagsPlaced`, `tagMode`) become the fields of `State`, and every function that
mutates them becomes a function from `State` (or `Board`) to its successor.

Conventions.
* `board` is an array of arrays of cell objects: `List (List Cell)`.
* Reading `board[r][c].field` with `(r, c)` outside the arrays throws a `TypeError` in
  JavaScript; a read is therefore `getCell : Option Cell`, and every function returns an
  `Option`, with `none` standing for "no result".
* DOM rendering, messages and sounds do not influence the variables above and are left out.
* `Math.random` is an input: `placeMines` consumes a list of sampled coordinates; running
  out of samples before the loop condition fails is `none`.
* `openAdjacentCells` is recursive through the mutated global board; its embedding takes a
  recursion budget and answers `none` when the budget is used up. `openAdjacentCellsLog` is
  the same function with a ghost log of the cells it recurses on.
-/

namespace Minesweeper

/-! ## Data model -/

/-- The cell object literal of `generateBoard`. -/
structure Cell where
  mine : Bool
  flagged : Bool
  tagged : Bool
  opened : Bool
  adjacentMines : Nat
deriving DecidableEq

/-- The global `board`: an array of rows, each an array of cells. -/
abbrev Board := List (List Cell)

/-- The module-level variables of the script that hold game state. -/
structure State where
  rows : Nat
  cols : Nat
  totalMines : Int
  board : Board
  gameOver : Bool
  gameWon : Bool
  flagsPlaced : Int
  tagsPlaced : Int
  tagMode : Bool
deriving DecidableEq

/-- The object every cell starts as in `generateBoard`. -/
def blankCell : Cell :=
  { mine := false, flagged := false, tagged := false, opened := false, adjacentMines := 0 }

/-- The read `board[r][c]`; `none` when the row or the cell does not exist. -/
def getCell (b : Board) (r c : Nat) : Option Cell :=
  match b[r]? with
  | none => none
  | some row => row[c]?

/-- The write `board[r][c].field = v`, as an update `f` of the cell object at `(r, c)`. -/
def modifyCell (b : Board) (r c : Nat) (f : Cell → Cell) : Board :=
  match b[r]? with
  | none => b
  | some row =>
    match row[c]? with
    | none => b
    | some cell => b.set r (row.set c (f cell))

/-- The constant `directions`, shared by `calculateAdjacentMines` and `openAdjacentCells`. -/
def directions : List (Int × Int) :=
  [(-1, -1), (-1, 0), (-1, 1),
   (0, -1),           (0, 1),
   (1, -1),  (1, 0),  (1, 1)]

/-- The guard `nr >= 0 && nr < rows && nc >= 0 && nc < cols`. -/
def inGrid (rows cols : Nat) (nr nc : Int) : Bool :=
  decide (0 ≤ nr) && decide (nr < rows) && decide (0 ≤ nc) && decide (nc < cols)

/-- A counted loop `for (let i = 0; i < n; i++) body`, threading the mutated state. -/
def forRange {σ : Type} (n : Nat) (body : Nat → σ → Option σ) (init : σ) : Option σ :=
  (List.range n).foldlM (fun s i => body i s) init

/-! ## Board generation -/

/-- The loop of `placeMines`, with `minesPlaced` as an argument and the pairs
`(Math.floor(Math.random() * rows), Math.floor(Math.random() * cols))` drawn from a list. -/
def placeMinesLoop (totalMines : Int) : List (Nat × Nat) → Int → Board → Option Board
  | [], minesPlaced, b => if minesPlaced < totalMines then none else some b
  | (r, c) :: rest, minesPlaced, b =>
    if minesPlaced < totalMines then
      match getCell b r c with
      | none => none
      | some cell =>
        if !cell.mine then
          placeMinesLoop totalMines rest (minesPlaced + 1)
            (modifyCell b r c (fun x => { x with mine := true }))
        else placeMinesLoop totalMines rest minesPlaced b
    else some b

/-- The function `placeMines`. -/
def placeMines (totalMines : Int) (b : Board) (samples : List (Nat × Nat)) : Option Board :=
  placeMinesLoop totalMines samples 0 b

/-- The inner `for (const [dx, dy] of directions)` loop of `calculateAdjacentMines`
for the cell `(r, c)`: the final value of `count`. -/
def countAdjacent (rows cols : Nat) (b : Board) (r c : Nat) : Option Nat :=
  directions.foldlM (fun count d =>
    if inGrid rows cols (r + d.1) (c + d.2) then
      match getCell b ((r : Int) + d.1).toNat ((c : Int) + d.2).toNat with
      | none => none
      | some cell => if cell.mine then some (count + 1) else some count
    else some count) 0

/-- The body of the two nested loops of `calculateAdjacentMines` at `(r, c)`. -/
def calculateAdjacentMinesAt (rows cols : Nat) (r c : Nat) (b : Board) : Option Board :=
  match getCell b r c with
  | none => none
  | some cell =>
    if cell.mine then some b
    else
      match countAdjacent rows cols b r c with
      | none => none
      | some count => some (modifyCell b r c (fun x => { x with adjacentMines := count }))

/-- The function `calculateAdjacentMines`. -/
def calculateAdjacentMines (rows cols : Nat) (b : Board) : Option Board :=
  forRange rows (fun r b => forRange cols (fun c b => calculateAdjacentMinesAt rows cols r c b) b) b

/-- The function `generateBoard`: a blank `rows × cols` board, then `placeMines`, then
`calculateAdjacentMines`, then the reset of the flags and counters. -/
def generateBoard (s : State) (samples : List (Nat × Nat)) : Option State :=
  match placeMines s.totalMines (List.replicate s.rows (List.replicate s.cols blankCell)) samples with
  | none => none
  | some b1 =>
    match calculateAdjacentMines s.rows s.cols b1 with
    | none => none
    | some b2 =>
      some { s with board := b2, gameOver := false, gameWon := false,
                    flagsPlaced := 0, tagsPlaced := 0 }

/-! ## Reveal -/

/-- The function `openAdjacentCells(r, c)` on the board `b`, with a recursion budget. -/
def openAdjacentCells (rows cols : Nat) : Nat → Board → Nat → Nat → Option Board
  | 0, _, _, _ => none
  | fuel + 1, b, r, c =>
    directions.foldlM (fun b d =>
      if inGrid rows cols (r + d.1) (c + d.2) then
        match getCell b ((r : Int) + d.1).toNat ((c : Int) + d.2).toNat with
        | none => none
        | some cell =>
          if !cell.opened && !cell.flagged then
            if cell.adjacentMines = 0 then
              openAdjacentCells rows cols fuel
                (modifyCell b ((r : Int) + d.1).toNat ((c : Int) + d.2).toNat
                  (fun x => { x with opened := true }))
                ((r : Int) + d.1).toNat ((c : Int) + d.2).toNat
            else
              some (modifyCell b ((r : Int) + d.1).toNat ((c : Int) + d.2).toNat
                (fun x => { x with opened := true }))
          else some b
      else some b) b

/-- The body of the nested loops of `revealAllMines` at `(r, c)`. -/
def revealAllMinesAt (r c : Nat) (b : Board) : Option Board :=
  match getCell b r c with
  | none => none
  | some cell =>
    if cell.mine then some (modifyCell b r c (fun x => { x with opened := true })) else some b

/-- The function `revealAllMines`. -/
def revealAllMines (rows cols : Nat) (b : Board) : Option Board :=
  forRange rows (fun r b => forRange cols (fun c b => revealAllMinesAt r c b) b) b

/-- The body of the inner loop of `checkWinCondition` at `(r, c)`; once
`allNonMinesOpened` is `false` both loops have been left by `break`. -/
def checkWinAt (b : Board) (r c : Nat) (allNonMinesOpened : Bool) : Option Bool :=
  if !allNonMinesOpened then some false
  else
    match getCell b r c with
    | none => none
    | some cell => if !cell.mine && !cell.opened then some false else some true

/-- The two nested loops of `checkWinCondition`: the final value of `allNonMinesOpened`. -/
def allNonMinesOpened (rows cols : Nat) (b : Board) : Option Bool :=
  forRange rows (fun r ok =>
    if !ok then some false else forRange cols (fun c ok => checkWinAt b r c ok) ok) true

/-- The function `checkWinCondition`. -/
def checkWinCondition (s : State) : Option State :=
  match allNonMinesOpened s.rows s.cols s.board with
  | none => none
  | some ok => if ok then some { s with gameWon := true } else some s

/-- The function `handleClick(r, c)`. The recursion budget handed to `openAdjacentCells`
is `rows * cols + 1`, one more than the number of cells of the grid. -/
def handleClick (s : State) (r c : Nat) : Option State :=
  if s.gameOver || s.gameWon then some s
  else
    match getCell s.board r c with
    | none => none
    | some cell =>
      if cell.opened || cell.flagged then some s
      else
        if cell.mine then
          match revealAllMines s.rows s.cols
              (modifyCell s.board r c (fun x => { x with opened := true })) with
          | none => none
          | some b => some { s with board := b, gameOver := true }
        else
          match (if cell.adjacentMines = 0 then
                  openAdjacentCells s.rows s.cols (s.rows * s.cols + 1)
                    (modifyCell s.board r c (fun x => { x with opened := true })) r c
                else some (modifyCell s.board r c (fun x => { x with opened := true }))) with
          | none => none
          | some b => checkWinCondition { s with board := b }

/-! ## Marking -/

/-- The function `handleRightClick(e, r, c)`; the event `e` only has its default
action prevented. -/
def handleRightClick (s : State) (r c : Nat) : Option State :=
  if s.gameOver || s.gameWon then some s
  else
    match getCell s.board r c with
    | none => none
    | some cell =>
      if cell.opened then some s
      else if s.tagMode then
        if cell.tagged then
          some { s with board := modifyCell s.board r c (fun x => { x with tagged := false }),
                        tagsPlaced := s.tagsPlaced - 1 }
        else if !cell.flagged then
          some { s with board := modifyCell s.board r c (fun x => { x with tagged := true }),
                        tagsPlaced := s.tagsPlaced + 1 }
        else some s
      else
        if cell.flagged then
          some { s with board := modifyCell s.board r c (fun x => { x with flagged := false }),
                        flagsPlaced := s.flagsPlaced - 1 }
        else if !cell.tagged then
          some { s with board := modifyCell s.board r c (fun x => { x with flagged := true }),
                        flagsPlaced := s.flagsPlaced + 1 }
        else some s

/-- The function `toggleTagMode`. -/
def toggleTagMode (s : State) : State :=
  { s with tagMode := !s.tagMode }

/-! ## Specification-side notions -/

/-- A board is a `rows × cols` grid: `rows` rows, each of `cols` cells. -/
def WF (rows cols : Nat) (b : Board) : Prop :=
  b.length = rows ∧ ∀ row ∈ b, row.length = cols

instance (rows cols : Nat) (b : Board) : Decidable (WF rows cols b) := by
  unfold WF; infer_instance

/-- The number of cells of the board that satisfy `p`. -/
def countCells (p : Cell → Bool) (b : Board) : Nat :=
  (b.map (fun row => row.countP p)).sum

/-- The number of mined cells. -/
def mineCount (b : Board) : Nat := countCells (fun x => x.mine) b

/-- The number of cells not yet opened. -/
def unopenedCount (b : Board) : Nat := countCells (fun x => !x.opened) b

/-- Whether `(r, c)` is a cell of the board and is mined. -/
def mined (b : Board) (r c : Nat) : Bool :=
  match getCell b r c with
  | none => false
  | some cell => cell.mine

/-- The number of offsets `(dr, dc)` in `{-1, 0, 1} × {-1, 0, 1}` other than `(0, 0)` for
which `(r + dr, c + dc)` lies inside the `rows × cols` grid and is mined. -/
def minedNeighbours (rows cols : Nat) (b : Board) (r c : Nat) : Nat :=
  (((({-1, 0, 1} : Finset Int) ×ˢ ({-1, 0, 1} : Finset Int)).erase (0, 0)).filter
    (fun d => 0 ≤ (r : Int) + d.1 ∧ (r : Int) + d.1 < rows ∧
      0 ≤ (c : Int) + d.2 ∧ (c : Int) + d.2 < cols ∧
      mined b ((r : Int) + d.1).toNat ((c : Int) + d.2).toNat = true)).card

/-- The test made for one direction by `calculateAdjacentMines`. -/
def minedInDirection (rows cols : Nat) (b : Board) (r c : Nat) (d : Int × Int) : Bool :=
  inGrid rows cols (r + d.1) (c + d.2) && mined b ((r : Int) + d.1).toNat ((c : Int) + d.2).toNat

/-- The cell that `calculateAdjacentMines` leaves at `(r, c)`, given the board `b` it started
from. -/
def withAdjacency (rows cols : Nat) (b : Board) (r c : Nat) (cell : Cell) : Cell :=
  if cell.mine then cell
  else { cell with adjacentMines := directions.countP (minedInDirection rows cols b r c) }

/-- The cell that `revealAllMines` leaves in place of `cell`. -/
def revealMine (cell : Cell) : Cell :=
  if cell.mine then { cell with opened := true } else cell

/-- Every non-mine cell of the board is opened. -/
def AllNonMinesOpened (b : Board) : Prop :=
  ∀ r c cell, getCell b r c = some cell → cell.mine = false → cell.opened = true

/-- Every cell of `b'` is the cell of `b` at the same place, except that cells of `b` that
were neither opened nor flagged may have become opened. -/
def OpensOnly (b b' : Board) : Prop :=
  ∀ r c, getCell b' r c = getCell b r c ∨
    ∃ cell, getCell b r c = some cell ∧ cell.opened = false ∧ cell.flagged = false ∧
      getCell b' r c = some { cell with opened := true }

/-- Every cell of `b'` is the cell of `b` at the same place, except that unopened cells of
`b` may have become opened. -/
def OpenedMore (b b' : Board) : Prop :=
  ∀ r c, getCell b' r c = getCell b r c ∨
    ∃ cell, getCell b r c = some cell ∧ cell.opened = false ∧
      getCell b' r c = some { cell with opened := true }

/-- No cell of the board is both flagged and tagged. -/
def NoFlagTag (b : Board) : Prop :=
  ∀ r c x, getCell b r c = some x → ¬ (x.flagged = true ∧ x.tagged = true)

/-- The states reachable from `generateBoard` (called on any prior variables, with any
samples on which it returns) by `handleClick`, `handleRightClick` at in-range coordinates
and `toggleTagMode`. -/
inductive Reachable : State → Prop
  | generate (s0 : State) (samples : List (Nat × Nat)) (s : State) :
      generateBoard s0 samples = some s → Reachable s
  | click (s : State) (r c : Nat) (s' : State) :
      Reachable s → r < s.rows → c < s.cols → handleClick s r c = some s' → Reachable s'
  | rightClick (s : State) (r c : Nat) (s' : State) :
      Reachable s → r < s.rows → c < s.cols → handleRightClick s r c = some s' → Reachable s'
  | toggle (s : State) : Reachable s → Reachable (toggleTagMode s)

/-! ## Concrete boards and sessions -/

/-- A mined, otherwise untouched cell. -/
def mineCell : Cell := { blankCell with mine := true }

/-- A 2 × 2 board with its only mine in the top left corner and no adjacency counts yet. -/
def cornerMineBoard : Board := [[mineCell, blankCell], [blankCell, blankCell]]

/-- A session awaiting `generateBoard` for a 2 × 2 board with one mine. -/
def freshSession : State :=
  { rows := 2, cols := 2, totalMines := 1, board := [], gameOver := true, gameWon := false,
    flagsPlaced := 3, tagsPlaced := 1, tagMode := false }

/-- A non-mine cell next to one mine. -/
def oneCell : Cell := { blankCell with adjacentMines := 1 }

/-- A session in progress on the 2-cell board `[mine, 1]`. -/
def twoCellSession : State :=
  { rows := 1, cols := 2, totalMines := 1, board := [[mineCell, oneCell]], gameOver := false,
    gameWon := false, flagsPlaced := 0, tagsPlaced := 0, tagMode := false }

/-- A session in progress on a 1 × 3 board without mines whose last cell is flagged. -/
def flaggedSession : State :=
  { rows := 1, cols := 3, totalMines := 0,
    board := [[blankCell, blankCell, { blankCell with flagged := true }]], gameOver := false,
    gameWon := false, flagsPlaced := 1, tagsPlaced := 0, tagMode := false }

/-- A session in progress on a 1 × 2 board whose first cell is tagged and whose second cell
is flagged, in flag mode. -/
def markedSession : State :=
  { rows := 1, cols := 2, totalMines := 1,
    board := [[{ oneCell with tagged := true }, { mineCell with flagged := true }]],
    gameOver := false, gameWon := false, flagsPlaced := 1, tagsPlaced := 1, tagMode := false }

/-- The session `generateBoard` returns from `freshSession` when the first sample is
`(0, 0)`. -/
def generatedSession : State :=
  { rows := 2, cols := 2, totalMines := 1, board := [[mineCell, oneCell], [oneCell, oneCell]],
    gameOver := false, gameWon := false, flagsPlaced := 0, tagsPlaced := 0, tagMode := false }

/-- The session `generatedSession` after a right click on `(1, 1)`. -/
def flaggedCornerSession : State :=
  { generatedSession with
    board := [[mineCell, oneCell], [oneCell, { oneCell with flagged := true }]],
    flagsPlaced := 1 }

/-- A session in progress on a 1 × 2 board whose first cell is opened. -/
def openedSession : State :=
  { rows := 1, cols := 2, totalMines := 1,
    board := [[{ oneCell with opened := true }, mineCell]],
    gameOver := false, gameWon := false, flagsPlaced := 0, tagsPlaced := 0, tagMode := false }

/-- The session `twoCellSession` after the click on its mine: lost, the mine shown. -/
def lostSession : State :=
  { twoCellSession with board := [[{ mineCell with opened := true }, oneCell]],
                        gameOver := true }

/-- The session `twoCellSession` after the click on its non-mine cell: won. -/
def wonSession : State :=
  { twoCellSession with board := [[mineCell, { oneCell with opened := true }]],
                        gameWon := true }

/-- The session `generatedSession` after a click on its mine. -/
def generatedLostSession : State :=
  { generatedSession with
    board := [[{ mineCell with opened := true }, oneCell], [oneCell, oneCell]],
    gameOver := true }

/-- The variables of `freshSession` with `totalMines` set to `0`. -/
def zeroMinesSession : State := { freshSession with totalMines := 0 }

/-- The variables of `freshSession` with `totalMines` set to `rows * cols = 4`. -/
def allMinesSession : State := { freshSession with totalMines := 4 }

/-- The variables of `freshSession` with `totalMines` set to `5`, above `rows * cols`. -/
def tooManyMinesSession : State := { freshSession with totalMines := 5 }

/-- The cells `u` and `v` are distinct 8-neighbours and `v` lies inside the `rows × cols`
grid: the two coordinates differ by at most one. -/
def Adjacent (rows cols : Nat) (u v : Nat × Nat) : Prop :=
  v.1 < rows ∧ v.2 < cols ∧ u ≠ v ∧
    u.1 ≤ v.1 + 1 ∧ v.1 ≤ u.1 + 1 ∧ u.2 ≤ v.2 + 1 ∧ v.2 ≤ u.2 + 1

/-- The cell at `v` exists and is neither opened nor flagged. -/
def Fillable (b : Board) (v : Nat × Nat) : Prop :=
  ∃ cell, getCell b v.1 v.2 = some cell ∧ cell.opened = false ∧ cell.flagged = false

/-- The cell at `u` exists and has `adjacentMines == 0`. -/
def ZeroAt (b : Board) (u : Nat × Nat) : Prop :=
  ∃ cell, getCell b u.1 u.2 = some cell ∧ cell.adjacentMines = 0

/-- There is a path `start = v0, v1, ..., vk = v` with `k ≥ 1` of consecutive distinct
in-grid 8-neighbours in which every `v1 .. vk` is unopened and unflagged on `b` and every
`v1 .. v(k-1)` has `adjacentMines == 0`: a path of one step (`first`), or a path to a cell
`u` with `adjacentMines == 0` extended by one step (`next`). -/
inductive FillPath (rows cols : Nat) (b : Board) (start : Nat × Nat) : Nat × Nat → Prop
  | first (v : Nat × Nat) : Adjacent rows cols start v → Fillable b v →
      FillPath rows cols b start v
  | next (u v : Nat × Nat) : FillPath rows cols b start u → ZeroAt b u →
      Adjacent rows cols u v → Fillable b v → FillPath rows cols b start v

/-- The cell at `v` was unopened on `b` and is the same cell, opened, on `b'`. -/
def NewlyOpened (b b' : Board) (v : Nat × Nat) : Prop :=
  ∃ cell, getCell b v.1 v.2 = some cell ∧ cell.opened = false ∧
    getCell b' v.1 v.2 = some { cell with opened := true }

/-- The cell at `v`, if it exists and is not flagged, is opened. -/
def Done (b : Board) (v : Nat × Nat) : Prop :=
  ∀ cell, getCell b v.1 v.2 = some cell → cell.flagged = false → cell.opened = true

/-- Every in-grid neighbour of `u` is opened or flagged. -/
def NbrsDone (rows cols : Nat) (b : Board) (u : Nat × Nat) : Prop :=
  ∀ v, Adjacent rows cols u v → Done b v

/-- Every cell with `adjacentMines == 0` opened between `b` and `b'` has all its in-grid
neighbours opened or flagged on `b'`. -/
def Closed (rows cols : Nat) (b b' : Board) : Prop :=
  ∀ u, NewlyOpened b b' u → ZeroAt b u → NbrsDone rows cols b' u

/-- The cell that `openAdjacentCells(r, c)` looks at in direction `d`. -/
def neighbour (r c : Nat) (d : Int × Int) : Nat × Nat :=
  (((r : Int) + d.1).toNat, ((c : Int) + d.2).toNat)

/-- The function `openAdjacentCells` with a log added as a ghost variable: the cells on which
a recursive call has been made so far, in call order. The board is computed exactly as in
`openAdjacentCells`; the log is only appended to, right before each recursive call. -/
def openAdjacentCellsLog (rows cols : Nat) :
    Nat → Board × List (Nat × Nat) → Nat → Nat → Option (Board × List (Nat × Nat))
  | 0, _, _, _ => none
  | fuel + 1, st, r, c =>
    directions.foldlM (fun st d =>
      if inGrid rows cols (r + d.1) (c + d.2) then
        match getCell st.1 ((r : Int) + d.1).toNat ((c : Int) + d.2).toNat with
        | none => none
        | some cell =>
          if !cell.opened && !cell.flagged then
            if cell.adjacentMines = 0 then
              openAdjacentCellsLog rows cols fuel
                (modifyCell st.1 ((r : Int) + d.1).toNat ((c : Int) + d.2).toNat
                  (fun x => { x with opened := true }),
                 st.2 ++ [(((r : Int) + d.1).toNat, ((c : Int) + d.2).toNat)])
                ((r : Int) + d.1).toNat ((c : Int) + d.2).toNat
            else
              some (modifyCell st.1 ((r : Int) + d.1).toNat ((c : Int) + d.2).toNat
                (fun x => { x with opened := true }), st.2)
          else some st
      else some st) st

/-- The cell at `v` exists and is opened. -/
def OpenAt (b : Board) (v : Nat × Nat) : Prop :=
  ∃ cell, getCell b v.1 v.2 = some cell ∧ cell.opened = true

/-- What holds between the board `b` and log `log` at the start of a call
`openAdjacentCells(start)` and the board `x` and log `lg` at a later point of that call. -/
def FillInv (rows cols : Nat) (b : Board) (log : List (Nat × Nat)) (start : Nat × Nat)
    (x : Board) (lg : List (Nat × Nat)) : Prop :=
  WF rows cols x ∧ OpensOnly b x ∧
  lg.length + unopenedCount x ≤ log.length + unopenedCount b ∧
  lg.Nodup ∧ (∀ v ∈ lg, OpenAt x v) ∧
  (∃ new, lg = log ++ new ∧ ∀ v ∈ new, NewlyOpened b x v ∧ ZeroAt b v) ∧
  Closed rows cols b x ∧ (∀ v, NewlyOpened b x v → FillPath rows cols b start v)

/-- Every non-mine cell of the board carries the adjacency count that
`calculateAdjacentMines` computes for it. -/
def Counted (rows cols : Nat) (b : Board) : Prop :=
  ∀ r c cell, getCell b r c = some cell → cell.mine = false →
    cell.adjacentMines = minedNeighbours rows cols b r c

/-- A 1 × 4 board without adjacency counts: a mine followed by three blank cells. -/
def rawRowBoard : Board := [[mineCell, blankCell, blankCell, blankCell]]

/-- The board `calculateAdjacentMines` makes of `rawRowBoard`. -/
def rowBoard : Board := [[mineCell, oneCell, blankCell, blankCell]]

/-- A session in progress on `rowBoard`. -/
def rowSession : State :=
  { rows := 1, cols := 4, totalMines := 1, board := rowBoard, gameOver := false,
    gameWon := false, flagsPlaced := 0, tagsPlaced := 0, tagMode := false }

/-- The cell with its `tagged` field erased. -/
def untag (x : Cell) : Cell := { x with tagged := false }

/-- The board with the `tagged` field of every cell erased. -/
def untagBoard (b : Board) : Board := b.map (List.map untag)

/-- The session with the `tagged` fields of its cells and `tagsPlaced` erased: two sessions
are identical except for these exactly when their images are equal. -/
def untagState (s : State) : State :=
  { s with board := untagBoard s.board, tagsPlaced := 0 }

/-- The session `rowSession` with its two blank cells tagged. -/
def taggedRowSession : State :=
  { rowSession with
    board := [[mineCell, oneCell, { blankCell with tagged := true },
               { blankCell with tagged := true }]],
    tagsPlaced := 2 }

/-! # Theorems -/

/-! ## Reading and writing cells -/

theorem getCell_eq_some_iff {b : Board} {r c : Nat} {cell : Cell} :
    getCell b r c = some cell ↔ ∃ row, b[r]? = some row ∧ row[c]? = some cell := by
  unfold getCell
  cases h : b[r]? with
  | none => simp
  | some row => simp

theorem getCell_isSome {rows cols : Nat} {b : Board} (hb : WF rows cols b) {r c : Nat}
    (hr : r < rows) (hc : c < cols) : ∃ cell, getCell b r c = some cell := by
  obtain ⟨hlen, hrow⟩ := hb
  have hr' : r < b.length := by omega
  have hc' : c < (b[r]).length := by
    rw [hrow _ (List.getElem_mem hr')]; exact hc
  exact ⟨(b[r])[c], getCell_eq_some_iff.2 ⟨b[r], List.getElem?_eq_getElem hr',
    List.getElem?_eq_getElem hc'⟩⟩

theorem getCell_lt {rows cols : Nat} {b : Board} (hb : WF rows cols b) {r c : Nat} {cell : Cell}
    (h : getCell b r c = some cell) : r < rows ∧ c < cols := by
  obtain ⟨row, h1, h2⟩ := getCell_eq_some_iff.1 h
  obtain ⟨hr, hrow⟩ := List.getElem?_eq_some.1 h1
  obtain ⟨hc, _⟩ := List.getElem?_eq_some.1 h2
  have hmem : row ∈ b := hrow ▸ List.getElem_mem hr
  have := hb.2 row hmem
  have := hb.1
  omega

theorem modifyCell_of_getCell {b : Board} {r c : Nat} {cell : Cell} (f : Cell → Cell)
    (h : getCell b r c = some cell) :
    ∃ row, b[r]? = some row ∧ row[c]? = some cell ∧
      modifyCell b r c f = b.set r (row.set c (f cell)) := by
  obtain ⟨row, h1, h2⟩ := getCell_eq_some_iff.1 h
  exact ⟨row, h1, h2, by simp [modifyCell, h1, h2]⟩

theorem modifyCell_of_getCell_none {b : Board} {r c : Nat} (f : Cell → Cell)
    (h : getCell b r c = none) : modifyCell b r c f = b := by
  unfold getCell at h
  unfold modifyCell
  cases h1 : b[r]? with
  | none => rfl
  | some row => rw [h1] at h; simp only at h; simp [h]

theorem getCell_modifyCell (b : Board) (r c : Nat) (f : Cell → Cell) (r' c' : Nat) :
    getCell (modifyCell b r c f) r' c' =
      if r' = r ∧ c' = c then (getCell b r c).map f else getCell b r' c' := by
  cases h : getCell b r c with
  | none =>
    rw [modifyCell_of_getCell_none f h]
    split
    · next hrc => rw [hrc.1, hrc.2, h]; rfl
    · rfl
  | some cell =>
    obtain ⟨row, h1, h2, hm⟩ := modifyCell_of_getCell f h
    obtain ⟨hr, hrow⟩ := List.getElem?_eq_some.1 h1
    obtain ⟨hc, _⟩ := List.getElem?_eq_some.1 h2
    rw [hm]
    unfold getCell
    by_cases hr' : r' = r
    · subst hr'
      rw [List.getElem?_set_self hr]
      by_cases hc' : c' = c
      · subst hc'
        simp [List.getElem?_set_self hc]
      · simp [hc', h1, List.getElem?_set_ne (Ne.symm hc')]
    · simp [hr', List.getElem?_set_ne (Ne.symm hr')]

theorem getCell_modifyCell_self {b : Board} {r c : Nat} {cell : Cell} (f : Cell → Cell)
    (h : getCell b r c = some cell) : getCell (modifyCell b r c f) r c = some (f cell) := by
  simp [getCell_modifyCell, h]

theorem WF_modifyCell {rows cols : Nat} {b : Board} (hb : WF rows cols b) (r c : Nat)
    (f : Cell → Cell) : WF rows cols (modifyCell b r c f) := by
  cases h : getCell b r c with
  | none => rw [modifyCell_of_getCell_none f h]; exact hb
  | some cell =>
    obtain ⟨row, h1, h2, hm⟩ := modifyCell_of_getCell f h
    obtain ⟨hr, hrow⟩ := List.getElem?_eq_some.1 h1
    rw [hm]
    refine ⟨by rw [List.length_set]; exact hb.1, ?_⟩
    intro row' hmem
    rcases List.mem_or_eq_of_mem_set hmem with h' | h'
    · exact hb.2 _ h'
    · rw [h', List.length_set]
      exact hb.2 row (hrow ▸ List.getElem_mem hr)

theorem set_of_getElem? {α : Type} (l : List α) (i : Nat) (a : α) (h : l[i]? = some a) :
    l.set i a = l := by
  induction l generalizing i with
  | nil => rfl
  | cons x xs ih =>
    cases i with
    | zero => simp at h; simp [h]
    | succ j => simp at h; simp [ih j h]

theorem modifyCell_id {b : Board} {r c : Nat} {cell : Cell} (f : Cell → Cell)
    (h : getCell b r c = some cell) (hf : f cell = cell) : modifyCell b r c f = b := by
  obtain ⟨row, h1, h2, hm⟩ := modifyCell_of_getCell f h
  rw [hm, hf, set_of_getElem? row c cell h2, set_of_getElem? b r row h1]

theorem modifyCell_modifyCell {b : Board} {r c : Nat} {cell : Cell} (f g : Cell → Cell)
    (h : getCell b r c = some cell) :
    modifyCell (modifyCell b r c f) r c g = modifyCell b r c (fun x => g (f x)) := by
  obtain ⟨row, h1, h2, hm⟩ := modifyCell_of_getCell f h
  obtain ⟨row', j1, _, hm'⟩ := modifyCell_of_getCell (fun x => g (f x)) h
  rw [h1] at j1
  cases j1
  obtain ⟨hr, hrow⟩ := List.getElem?_eq_some.1 h1
  obtain ⟨hc, hcell⟩ := List.getElem?_eq_some.1 h2
  have h1' : (b.set r (row.set c (f cell)))[r]? = some (row.set c (f cell)) :=
    List.getElem?_set_self hr
  have h2' : (row.set c (f cell))[c]? = some (f cell) := List.getElem?_set_self hc
  have h' : getCell (b.set r (row.set c (f cell))) r c = some (f cell) :=
    getCell_eq_some_iff.2 ⟨_, h1', h2'⟩
  obtain ⟨row2, k1, _, km⟩ := modifyCell_of_getCell g h'
  rw [h1'] at k1
  cases k1
  rw [hm', hm, km, List.set_set, List.set_set]

/-! ## Loops -/

theorem foldlM_inv {σ α : Type} (P : σ → Prop) (f : σ → α → Option σ) (l : List α) (init : σ)
    (h0 : P init) (hstep : ∀ s, ∀ x ∈ l, P s → ∃ s', f s x = some s' ∧ P s') :
    ∃ s', l.foldlM f init = some s' ∧ P s' := by
  induction l generalizing init with
  | nil => exact ⟨init, rfl, h0⟩
  | cons x xs ih =>
    obtain ⟨s1, h1, hP⟩ := hstep init x (List.mem_cons_self _ _) h0
    obtain ⟨s', h2, hP'⟩ := ih s1 hP (fun s y hy hs => hstep s y (List.mem_cons_of_mem _ hy) hs)
    exact ⟨s', by simp [List.foldlM_cons, h1, h2], hP'⟩

theorem forRange_succ {σ : Type} (n : Nat) (body : Nat → σ → Option σ) (init : σ) :
    forRange (n + 1) body init = (forRange n body init).bind (body n) := by
  unfold forRange
  rw [List.range_succ, List.foldlM_append]
  cases List.foldlM (fun s i => body i s) init (List.range n) with
  | none => rfl
  | some s => simp [List.foldlM_cons]

theorem forRange_inv {σ : Type} (P : Nat → σ → Prop) (n : Nat) (body : Nat → σ → Option σ)
    (init : σ) (h0 : P 0 init)
    (hstep : ∀ i s, i < n → P i s → ∃ s', body i s = some s' ∧ P (i + 1) s') :
    ∃ s', forRange n body init = some s' ∧ P n s' := by
  induction n with
  | zero => exact ⟨init, rfl, h0⟩
  | succ n ih =>
    obtain ⟨s1, h1, hP⟩ := ih (fun i s hi hs => hstep i s (Nat.lt_succ_of_lt hi) hs)
    obtain ⟨s', h2, hP'⟩ := hstep n s1 (Nat.lt_succ_self n) hP
    exact ⟨s', by rw [forRange_succ, h1]; exact h2, hP'⟩

/-- Two nested counted loops whose body rewrites the cell at `(r, c)` by `g r c`, as long as
a property `Inv` of the board that these rewrites maintain holds: the loops finish and every
cell of the result is the image of the original cell under `g`. -/
theorem nested_loops_pointwise (rows cols : Nat) (body : Nat → Nat → Board → Option Board)
    (g : Nat → Nat → Cell → Cell) (Inv : Board → Prop)
    (hbody : ∀ b r c, WF rows cols b → Inv b → r < rows → c < cols →
      body r c b = some (modifyCell b r c (g r c)))
    (hInv : ∀ b r c, Inv b → Inv (modifyCell b r c (g r c)))
    (b : Board) (hb : WF rows cols b) (hI : Inv b) :
    ∃ b', forRange rows (fun r b => forRange cols (fun c b => body r c b) b) b = some b' ∧
      WF rows cols b' ∧ Inv b' ∧ ∀ r c, getCell b' r c = (getCell b r c).map (g r c) := by
  have houter := forRange_inv
    (fun r (x : Board) => WF rows cols x ∧ Inv x ∧
      ∀ r' c', getCell x r' c' = if r' < r then (getCell b r' c').map (g r' c') else getCell b r' c')
    rows (fun r b => forRange cols (fun c b => body r c b) b) b
    ⟨hb, hI, fun r' c' => by simp⟩ ?_
  · obtain ⟨b', h1, hwf, hinv, hcells⟩ := houter
    refine ⟨b', h1, hwf, hinv, fun r c => ?_⟩
    rw [hcells]
    split
    · rfl
    · next hr =>
      cases hg : getCell b r c with
      | none => rfl
      | some cell => exact absurd (getCell_lt hb hg).1 hr
  · intro r x hr ⟨hx, hxI, hxc⟩
    have hinner := forRange_inv
      (fun c (y : Board) => WF rows cols y ∧ Inv y ∧
        ∀ r' c', getCell y r' c' =
          if r' < r ∨ (r' = r ∧ c' < c) then (getCell b r' c').map (g r' c') else getCell b r' c')
      cols (fun c b => body r c b) x
      ⟨hx, hxI, fun r' c' => by simp [hxc]⟩ ?_
    · obtain ⟨y, h1, hwf, hinv, hcells⟩ := hinner
      refine ⟨y, h1, hwf, hinv, fun r' c' => ?_⟩
      rw [hcells]
      by_cases h1 : r' < r
      · simp [h1, Nat.lt_succ_of_lt h1]
      · by_cases h2 : r' = r
        · subst h2
          cases hg : getCell b r' c' with
          | none => simp
          | some cell => simp [(getCell_lt hb hg).2]
        · have h3 : ¬ r' < r + 1 := by omega
          simp [h1, h2, h3]
    · intro c y hc ⟨hy, hyI, hyc⟩
      refine ⟨_, hbody y r c hy hyI hr hc, WF_modifyCell hy _ _ _, hInv _ _ _ hyI, fun r' c' => ?_⟩
      rw [getCell_modifyCell]
      by_cases h : r' = r ∧ c' = c
      · obtain ⟨rfl, rfl⟩ := h
        simp [hyc]
      · rw [if_neg h, hyc]
        by_cases h1 : r' < r
        · simp [h1]
        · by_cases h2 : r' = r
          · subst h2
            have h3 : c' ≠ c := fun h' => h ⟨rfl, h'⟩
            by_cases h4 : c' < c
            · simp [h4, Nat.lt_succ_of_lt h4]
            · have h5 : ¬ c' < c + 1 := by omega
              simp [h4, h5]
          · simp [h1, h2]

/-! ## Counting cells -/

theorem sum_map_set {α : Type} (m : α → Nat) (l : List α) (i : Nat) (a a' : α)
    (h : l[i]? = some a) : ((l.set i a').map m).sum + m a = (l.map m).sum + m a' := by
  induction l generalizing i with
  | nil => simp at h
  | cons x xs ih =>
    cases i with
    | zero =>
      simp at h
      subst h
      simp only [List.set_cons_zero, List.map_cons, List.sum_cons]
      omega
    | succ j =>
      simp at h
      have := ih j h
      simp only [List.set_cons_succ, List.map_cons, List.sum_cons]
      omega

theorem countP_set_of_getElem? {α : Type} (p : α → Bool) (l : List α) (i : Nat) (a a' : α)
    (h : l[i]? = some a) :
    (l.set i a').countP p + (if p a then 1 else 0) = l.countP p + (if p a' then 1 else 0) := by
  induction l generalizing i with
  | nil => simp at h
  | cons x xs ih =>
    cases i with
    | zero =>
      simp at h
      subst h
      simp only [List.set_cons_zero, List.countP_cons]
      omega
    | succ j =>
      simp at h
      have := ih j h
      simp only [List.set_cons_succ, List.countP_cons]
      omega

theorem countCells_modifyCell (p : Cell → Bool) {b : Board} {r c : Nat} {cell : Cell}
    (f : Cell → Cell) (h : getCell b r c = some cell) :
    countCells p (modifyCell b r c f) + (if p cell then 1 else 0) =
      countCells p b + (if p (f cell) then 1 else 0) := by
  obtain ⟨row, h1, h2, hm⟩ := modifyCell_of_getCell f h
  rw [hm]
  unfold countCells
  have e1 := sum_map_set (fun row => row.countP p) b r row (row.set c (f cell)) h1
  have e2 := countP_set_of_getElem? p row c cell (f cell) h2
  simp only at e1
  omega

theorem modifyCell_congr {b : Board} {r c : Nat} {cell : Cell} (f g : Cell → Cell)
    (h : getCell b r c = some cell) (hfg : f cell = g cell) :
    modifyCell b r c f = modifyCell b r c g := by
  obtain ⟨row, h1, _, hm⟩ := modifyCell_of_getCell f h
  obtain ⟨row', j1, _, hm'⟩ := modifyCell_of_getCell g h
  rw [h1] at j1
  cases j1
  rw [hm, hm', hfg]

/-! ## Adjacency counts -/

theorem inGrid_iff {rows cols : Nat} {nr nc : Int} :
    inGrid rows cols nr nc = true ↔ 0 ≤ nr ∧ nr < rows ∧ 0 ≤ nc ∧ nc < cols := by
  simp [inGrid, and_assoc]

theorem inGrid_toNat {rows cols : Nat} {nr nc : Int} (h : inGrid rows cols nr nc = true) :
    nr.toNat < rows ∧ nc.toNat < cols := by
  obtain ⟨h1, h2, h3, h4⟩ := inGrid_iff.1 h
  omega

theorem countAdjacent_aux (rows cols : Nat) (b : Board) (hb : WF rows cols b) (r c : Nat)
    (l : List (Int × Int)) (init : Nat) :
    l.foldlM (fun count d =>
      if inGrid rows cols (r + d.1) (c + d.2) then
        match getCell b ((r : Int) + d.1).toNat ((c : Int) + d.2).toNat with
        | none => none
        | some cell => if cell.mine then some (count + 1) else some count
      else some count) init = some (init + l.countP (minedInDirection rows cols b r c)) := by
  induction l generalizing init with
  | nil => simp
  | cons d ds ih =>
    rw [List.foldlM_cons, List.countP_cons]
    by_cases hg : inGrid rows cols (r + d.1) (c + d.2) = true
    · obtain ⟨cell, hcell⟩ := getCell_isSome hb (inGrid_toNat hg).1 (inGrid_toNat hg).2
      by_cases hm : cell.mine = true
      · simp [hg, hcell, hm, ih, minedInDirection, mined]
        omega
      · simp [hg, hcell, hm, ih, minedInDirection, mined]
    · simp [hg, ih, minedInDirection]

theorem countAdjacent_eq {rows cols : Nat} {b : Board} (hb : WF rows cols b) (r c : Nat) :
    countAdjacent rows cols b r c = some (directions.countP (minedInDirection rows cols b r c)) := by
  unfold countAdjacent
  rw [countAdjacent_aux rows cols b hb r c directions 0, Nat.zero_add]

theorem directions_toFinset :
    directions.toFinset = (({-1, 0, 1} : Finset Int) ×ˢ ({-1, 0, 1} : Finset Int)).erase (0, 0) := by
  decide

theorem directions_nodup : directions.Nodup := by decide

theorem countP_directions_eq (rows cols : Nat) (b : Board) (r c : Nat) :
    directions.countP (minedInDirection rows cols b r c) = minedNeighbours rows cols b r c := by
  unfold minedNeighbours
  rw [← directions_toFinset, List.countP_eq_length_filter,
    ← List.toFinset_card_of_nodup (directions_nodup.filter _), List.toFinset_filter]
  congr 1
  ext d
  simp [minedInDirection, inGrid_iff, and_assoc]

theorem mined_congr {b b' : Board} {r c : Nat}
    (h : (getCell b' r c).map (fun x => x.mine) = (getCell b r c).map (fun x => x.mine)) :
    mined b' r c = mined b r c := by
  unfold mined
  cases h1 : getCell b r c <;> cases h2 : getCell b' r c <;> simp_all

theorem calculateAdjacentMines_cells (rows cols : Nat) (b : Board) (hb : WF rows cols b) :
    ∃ b', calculateAdjacentMines rows cols b = some b' ∧ WF rows cols b' ∧
      ∀ r c, getCell b' r c = (getCell b r c).map (withAdjacency rows cols b r c) := by
  have hbody : ∀ x r c, WF rows cols x →
      (∀ r c, (getCell x r c).map (fun y => y.mine) = (getCell b r c).map (fun y => y.mine)) →
      r < rows → c < cols →
      calculateAdjacentMinesAt rows cols r c x =
        some (modifyCell x r c (withAdjacency rows cols b r c)) := by
    intro x r c hx hI hr hc
    obtain ⟨cell, hcell⟩ := getCell_isSome hx hr hc
    unfold calculateAdjacentMinesAt
    rw [hcell]
    by_cases hm : cell.mine = true
    · simp only [hm, if_true]
      rw [modifyCell_id _ hcell (by simp [withAdjacency, hm])]
    · simp only [hm]
      rw [countAdjacent_eq hx]
      have hcnt : directions.countP (minedInDirection rows cols x r c) =
          directions.countP (minedInDirection rows cols b r c) := by
        congr 1
        funext d
        simp only [minedInDirection]
        rw [mined_congr (hI _ _)]
      simp only [hcnt, Bool.false_eq_true, if_false]
      rw [modifyCell_congr _ (withAdjacency rows cols b r c) hcell (by simp [withAdjacency, hm])]
  have hInv : ∀ x r c,
      (∀ r c, (getCell x r c).map (fun y => y.mine) = (getCell b r c).map (fun y => y.mine)) →
      ∀ r' c', (getCell (modifyCell x r c (withAdjacency rows cols b r c)) r' c').map
        (fun y => y.mine) = (getCell b r' c').map (fun y => y.mine) := by
    intro x r c hI r' c'
    rw [getCell_modifyCell]
    split
    · next h =>
      obtain ⟨rfl, rfl⟩ := h
      rw [← hI r' c']
      cases getCell x r' c' with
      | none => rfl
      | some cell =>
        simp only [Option.map_some', withAdjacency]
        split <;> rfl
    · exact hI r' c'
  obtain ⟨b', h1, h2, _, h4⟩ := nested_loops_pointwise rows cols
    (calculateAdjacentMinesAt rows cols) (withAdjacency rows cols b)
    (fun x => ∀ r c, (getCell x r c).map (fun y => y.mine) = (getCell b r c).map (fun y => y.mine))
    hbody hInv b hb (fun _ _ => rfl)
  exact ⟨b', h1, h2, h4⟩

/-! ## Boards that agree cell by cell -/

theorem map_eq_of_getCell {β : Type} (f : Cell → β) {rows cols : Nat} {b b' : Board}
    (hb : WF rows cols b) (hb' : WF rows cols b')
    (h : ∀ r c, (getCell b' r c).map f = (getCell b r c).map f) :
    b'.map (List.map f) = b.map (List.map f) := by
  apply List.ext_getElem?
  intro i
  simp only [List.getElem?_map]
  by_cases hi : i < rows
  · have hi1 : i < b.length := by rw [hb.1]; exact hi
    have hi2 : i < b'.length := by rw [hb'.1]; exact hi
    have h1 : b[i]? = some b[i] := List.getElem?_eq_getElem hi1
    have h2 : b'[i]? = some b'[i] := List.getElem?_eq_getElem hi2
    rw [h1, h2]
    simp only [Option.map_some', Option.some.injEq]
    apply List.ext_getElem?
    intro j
    have := h i j
    simp only [getCell, h1, h2] at this
    simpa [List.getElem?_map] using this
  · have h1 : b[i]? = none := List.getElem?_eq_none (by rw [hb.1]; omega)
    have h2 : b'[i]? = none := List.getElem?_eq_none (by rw [hb'.1]; omega)
    rw [h1, h2]

theorem board_ext {rows cols : Nat} {b b' : Board} (hb : WF rows cols b) (hb' : WF rows cols b')
    (h : ∀ r c, getCell b' r c = getCell b r c) : b' = b := by
  have := map_eq_of_getCell id hb hb' (fun r c => by rw [h])
  simpa using this

theorem countCells_eq_map (p : Cell → Bool) (b : Board) :
    countCells p b = ((b.map (List.map p)).map (List.count true)).sum := by
  unfold countCells
  rw [List.map_map]
  congr 1
  apply List.map_congr_left
  intro row _
  simp only [Function.comp, List.count, List.countP_map]
  congr 1
  funext x
  simp

theorem countCells_congr (p : Cell → Bool) {rows cols : Nat} {b b' : Board}
    (hb : WF rows cols b) (hb' : WF rows cols b')
    (h : ∀ r c, (getCell b' r c).map p = (getCell b r c).map p) :
    countCells p b' = countCells p b := by
  rw [countCells_eq_map, countCells_eq_map, map_eq_of_getCell p hb hb' h]

/-! ## Mine placement -/

theorem WF_replicate (rows cols : Nat) (x : Cell) :
    WF rows cols (List.replicate rows (List.replicate cols x)) := by
  refine ⟨List.length_replicate _ _, fun row hrow => ?_⟩
  rw [List.eq_of_mem_replicate hrow, List.length_replicate]

theorem getCell_replicate {rows cols : Nat} (x : Cell) {r c : Nat} {cell : Cell}
    (h : getCell (List.replicate rows (List.replicate cols x)) r c = some cell) : cell = x := by
  obtain ⟨row, h1, h2⟩ := getCell_eq_some_iff.1 h
  obtain ⟨hr, hrow⟩ := List.getElem?_eq_some.1 h1
  obtain ⟨hc, hcell⟩ := List.getElem?_eq_some.1 h2
  have hrow' : row = List.replicate cols x :=
    List.eq_of_mem_replicate (hrow ▸ List.getElem_mem hr)
  subst hrow'
  exact List.eq_of_mem_replicate (hcell ▸ List.getElem_mem hc)

theorem countCells_replicate (p : Cell → Bool) (rows cols : Nat) (x : Cell) (hx : p x = false) :
    countCells p (List.replicate rows (List.replicate cols x)) = 0 := by
  simp [countCells, List.countP_replicate, hx]

theorem placeMinesLoop_done (total : Int) (samples : List (Nat × Nat)) (placed : Int) (b : Board)
    (h : ¬ placed < total) : placeMinesLoop total samples placed b = some b := by
  cases samples with
  | nil => simp [placeMinesLoop, h]
  | cons p rest =>
    obtain ⟨r, c⟩ := p
    simp [placeMinesLoop, h]

theorem placeMinesLoop_spec (rows cols : Nat) (total : Int) (samples : List (Nat × Nat)) :
    ∀ (placed : Int) (b b' : Board), WF rows cols b → (mineCount b : Int) = placed →
      placed ≤ total → placeMinesLoop total samples placed b = some b' →
      WF rows cols b' ∧ (mineCount b' : Int) = total := by
  induction samples with
  | nil =>
    intro placed b b' hb hcount hle h
    unfold placeMinesLoop at h
    split at h
    · cases h
    · cases h
      exact ⟨hb, by omega⟩
  | cons p rest ih =>
    obtain ⟨r, c⟩ := p
    intro placed b b' hb hcount hle h
    unfold placeMinesLoop at h
    split at h
    · next hlt =>
      cases hcell : getCell b r c with
      | none => rw [hcell] at h; cases h
      | some cell =>
        rw [hcell] at h
        simp only at h
        split at h
        · next hm =>
          have hm' : cell.mine = false := by simpa using hm
          have hcnt := countCells_modifyCell (fun x => x.mine) (fun x => { x with mine := true })
            hcell
          simp only [hm', Bool.false_eq_true, if_false, if_true] at hcnt
          refine ih (placed + 1) _ b' (WF_modifyCell hb _ _ _) ?_ (by omega) h
          unfold mineCount at hcount ⊢
          omega
        · exact ih placed b b' hb hcount hle h
    · cases h
      exact ⟨hb, by omega⟩

theorem generateBoard_eq (s : State) (samples : List (Nat × Nat)) (b1 : Board)
    (hfin : placeMines s.totalMines (List.replicate s.rows (List.replicate s.cols blankCell))
      samples = some b1) :
    ∃ b2, calculateAdjacentMines s.rows s.cols b1 = some b2 ∧
      WF s.rows s.cols b1 ∧ WF s.rows s.cols b2 ∧
      (∀ r c, getCell b2 r c = (getCell b1 r c).map (withAdjacency s.rows s.cols b1 r c)) ∧
      generateBoard s samples = some { s with board := b2, gameOver := false, gameWon := false,
                                              flagsPlaced := 0, tagsPlaced := 0 } := by
  have hb1 : WF s.rows s.cols b1 := by
    by_cases h0 : 0 ≤ s.totalMines
    · exact (placeMinesLoop_spec s.rows s.cols s.totalMines samples 0 _ b1
        (WF_replicate _ _ _) (by simp [mineCount, countCells_replicate, blankCell]) h0 hfin).1
    · unfold placeMines at hfin
      rw [placeMinesLoop_done _ _ _ _ (by omega)] at hfin
      cases hfin
      exact WF_replicate _ _ _
  obtain ⟨b2, h2, hb2, hcells⟩ := calculateAdjacentMines_cells s.rows s.cols b1 hb1
  exact ⟨b2, h2, hb1, hb2, hcells, by simp [generateBoard, hfin, h2]⟩

theorem withAdjacency_mine (rows cols : Nat) (b : Board) (r c : Nat) (cell : Cell) :
    (withAdjacency rows cols b r c cell).mine = cell.mine := by
  unfold withAdjacency
  split <;> rfl

/-! ## Revealing every mine -/

theorem revealAllMines_cells (rows cols : Nat) (b : Board) (hb : WF rows cols b) :
    ∃ b', revealAllMines rows cols b = some b' ∧ WF rows cols b' ∧
      ∀ r c, getCell b' r c = (getCell b r c).map revealMine := by
  have hbody : ∀ x r c, WF rows cols x → True → r < rows → c < cols →
      revealAllMinesAt r c x = some (modifyCell x r c revealMine) := by
    intro x r c hx _ hr hc
    obtain ⟨cell, hcell⟩ := getCell_isSome hx hr hc
    unfold revealAllMinesAt
    rw [hcell]
    by_cases hm : cell.mine = true
    · simp only [hm, if_true]
      rw [modifyCell_congr _ revealMine hcell (by simp [revealMine, hm])]
    · simp only [hm, Bool.false_eq_true, if_false]
      rw [modifyCell_id _ hcell (by simp [revealMine, hm])]
  obtain ⟨b', h1, h2, _, h4⟩ := nested_loops_pointwise rows cols
    (fun r c x => revealAllMinesAt r c x) (fun _ _ => revealMine) (fun _ => True)
    hbody (fun _ _ _ _ => trivial) b hb trivial
  exact ⟨b', h1, h2, h4⟩

/-! ## The win test -/

theorem allNonMinesOpened_spec (rows cols : Nat) (b : Board) (hb : WF rows cols b) :
    ∃ ok, allNonMinesOpened rows cols b = some ok ∧ (ok = true ↔ AllNonMinesOpened b) := by
  have houter := forRange_inv
    (fun r (ok : Bool) => ok = true ↔
      ∀ r' c cell, r' < r → getCell b r' c = some cell → cell.mine = false → cell.opened = true)
    rows (fun r ok =>
      if !ok then some false else forRange cols (fun c ok => checkWinAt b r c ok) ok) true
    (by simp) ?_
  · obtain ⟨ok, h1, h2⟩ := houter
    refine ⟨ok, h1, h2.trans ⟨fun h r c cell hcell => h r c cell (getCell_lt hb hcell).1 hcell,
      fun h r c cell _ hcell => h r c cell hcell⟩⟩
  · intro r ok hr hok
    cases ok with
    | false =>
      refine ⟨false, rfl, ?_⟩
      simp only [Bool.false_eq_true, false_iff] at hok ⊢
      intro h
      exact hok (fun r' c cell hr' => h r' c cell (Nat.lt_succ_of_lt hr'))
    | true =>
      simp only [true_iff] at hok
      have hinner := forRange_inv
        (fun c (ok : Bool) => ok = true ↔
          ∀ c' cell, c' < c → getCell b r c' = some cell → cell.mine = false → cell.opened = true)
        cols (fun c ok => checkWinAt b r c ok) true (by simp) ?_
      · obtain ⟨ok, h1, h2⟩ := hinner
        refine ⟨ok, by simpa using h1, h2.trans ⟨fun h r' c cell hr' hcell => ?_,
          fun h c' cell _ hcell => h r c' cell (Nat.lt_succ_self r) hcell⟩⟩
        rcases Nat.lt_succ_iff_lt_or_eq.1 hr' with hlt | heq
        · exact hok r' c cell hlt hcell
        · subst heq
          exact h c cell (getCell_lt hb hcell).2 hcell
      · intro c ok hc hok'
        cases ok with
        | false =>
          refine ⟨false, rfl, ?_⟩
          simp only [Bool.false_eq_true, false_iff] at hok' ⊢
          intro h
          exact hok' (fun c' cell hc' => h c' cell (Nat.lt_succ_of_lt hc'))
        | true =>
          simp only [true_iff] at hok'
          obtain ⟨cell, hcell⟩ := getCell_isSome hb hr hc
          by_cases hgood : cell.mine = false → cell.opened = true
          · refine ⟨true, ?_, ?_⟩
            · show checkWinAt b r c true = some true
              by_cases hm : cell.mine = true
              · simp [checkWinAt, hcell, hm]
              · simp [checkWinAt, hcell, hgood (by simpa using hm)]
            · simp only [true_iff]
              intro c' cell' hc' hcell'
              rcases Nat.lt_succ_iff_lt_or_eq.1 hc' with hlt | heq
              · exact hok' c' cell' hlt hcell'
              · subst heq
                rw [hcell] at hcell'
                cases hcell'
                exact hgood
          · refine ⟨false, ?_, ?_⟩
            · show checkWinAt b r c true = some false
              have hm : cell.mine = false := by
                by_contra hm
                exact hgood (fun h => absurd h hm)
              have ho : cell.opened = false := by
                by_contra ho
                exact hgood (fun _ => by simpa using ho)
              simp [checkWinAt, hcell, hm, ho]
            · simp only [Bool.false_eq_true, false_iff]
              intro h
              exact hgood (h c cell (Nat.lt_succ_self c) hcell)

theorem checkWinCondition_spec (s : State) (hb : WF s.rows s.cols s.board) :
    ∃ s', checkWinCondition s = some s' ∧ s'.board = s.board ∧ s'.rows = s.rows ∧
      s'.cols = s.cols ∧ s'.totalMines = s.totalMines ∧ s'.gameOver = s.gameOver ∧
      s'.flagsPlaced = s.flagsPlaced ∧ s'.tagsPlaced = s.tagsPlaced ∧ s'.tagMode = s.tagMode ∧
      (s'.gameWon = true ↔ s.gameWon = true ∨ AllNonMinesOpened s.board) := by
  obtain ⟨ok, h1, h2⟩ := allNonMinesOpened_spec s.rows s.cols s.board hb
  unfold checkWinCondition
  rw [h1]
  cases ok with
  | true =>
    refine ⟨_, rfl, rfl, rfl, rfl, rfl, rfl, rfl, rfl, rfl, ?_⟩
    simp [h2.1 rfl]
  | false =>
    refine ⟨_, rfl, rfl, rfl, rfl, rfl, rfl, rfl, rfl, rfl, ?_⟩
    have : ¬ AllNonMinesOpened s.board := fun h => by simpa using h2.2 h
    simp [this]

/-! ## Flood fill -/

theorem OpensOnly_refl (b : Board) : OpensOnly b b := fun _ _ => Or.inl rfl

theorem OpensOnly_trans {b b' b'' : Board} (h1 : OpensOnly b b') (h2 : OpensOnly b' b'') :
    OpensOnly b b'' := by
  intro r c
  rcases h2 r c with h | ⟨cell', hc', ho', hf', hget'⟩
  · rw [h]
    exact h1 r c
  · rcases h1 r c with h | ⟨cell, hc, ho, hf, hget⟩
    · rw [h] at hc'
      exact Or.inr ⟨cell', hc', ho', hf', hget'⟩
    · rw [hget] at hc'
      cases hc'
      cases ho'

theorem OpensOnly_modifyCell {b : Board} {r c : Nat} {cell : Cell}
    (h : getCell b r c = some cell) (ho : cell.opened = false) (hf : cell.flagged = false) :
    OpensOnly b (modifyCell b r c (fun x => { x with opened := true })) := by
  intro r' c'
  rw [getCell_modifyCell]
  split
  · next hrc =>
    obtain ⟨rfl, rfl⟩ := hrc
    exact Or.inr ⟨cell, h, ho, hf, by rw [h]; rfl⟩
  · exact Or.inl rfl

theorem unopenedCount_modifyCell {b : Board} {r c : Nat} {cell : Cell}
    (h : getCell b r c = some cell) (ho : cell.opened = false) :
    unopenedCount (modifyCell b r c (fun x => { x with opened := true })) + 1 =
      unopenedCount b := by
  have := countCells_modifyCell (fun x => !x.opened) (fun x => { x with opened := true }) h
  simp only [ho, Bool.not_false, if_true, Bool.not_true, Bool.false_eq_true, if_false] at this
  unfold unopenedCount
  omega

theorem countCells_le_aux (p : Cell → Bool) (cols : Nat) (b : Board)
    (h : ∀ row ∈ b, row.length = cols) : countCells p b ≤ b.length * cols := by
  induction b with
  | nil => simp [countCells]
  | cons row rest ih =>
    have h1 : row.countP p ≤ cols := by
      rw [← h row (List.mem_cons_self _ _)]
      exact List.countP_le_length p
    have h2 := ih (fun x hx => h x (List.mem_cons_of_mem _ hx))
    simp only [countCells, List.map_cons, List.sum_cons, List.length_cons] at h2 ⊢
    rw [Nat.succ_mul]
    omega

theorem countCells_le (p : Cell → Bool) {rows cols : Nat} {b : Board} (hb : WF rows cols b) :
    countCells p b ≤ rows * cols := by
  rw [← hb.1]
  exact countCells_le_aux p cols b hb.2

/-- With a budget above the number of unopened cells, `openAdjacentCells` returns: it answers
a grid of the same shape, obtained by opening unopened, unflagged cells only. -/
theorem openAdjacentCells_spec (rows cols : Nat) (fuel : Nat) :
    ∀ (b : Board) (r c : Nat), WF rows cols b → unopenedCount b < fuel →
      ∃ b', openAdjacentCells rows cols fuel b r c = some b' ∧ WF rows cols b' ∧
        OpensOnly b b' ∧ unopenedCount b' ≤ unopenedCount b := by
  induction fuel with
  | zero => intro b r c _ h; exact absurd h (Nat.not_lt_zero _)
  | succ fuel ih =>
    intro b r c hb hfuel
    unfold openAdjacentCells
    apply foldlM_inv
      (fun x => WF rows cols x ∧ OpensOnly b x ∧ unopenedCount x ≤ unopenedCount b)
    · exact ⟨hb, OpensOnly_refl b, Nat.le_refl _⟩
    · intro x d _ ⟨hx, hbx, hcx⟩
      by_cases hg : inGrid rows cols (r + d.1) (c + d.2) = true
      · obtain ⟨cell, hcell⟩ := getCell_isSome hx (inGrid_toNat hg).1 (inGrid_toNat hg).2
        simp only [hg, if_true, hcell]
        by_cases hopen : (!cell.opened && !cell.flagged) = true
        · have ho : cell.opened = false := by
            cases h : cell.opened <;> simp_all
          have hf : cell.flagged = false := by
            cases h : cell.flagged <;> simp_all
          have hcnt := unopenedCount_modifyCell hcell ho
          have hstep := OpensOnly_modifyCell hcell ho hf
          simp only [hopen, if_true]
          by_cases hz : cell.adjacentMines = 0
          · simp only [hz, if_true]
            obtain ⟨b', h1, h2, h3, h4⟩ := ih
              (modifyCell x ((r : Int) + d.1).toNat ((c : Int) + d.2).toNat
                (fun x => { x with opened := true }))
              ((r : Int) + d.1).toNat ((c : Int) + d.2).toNat
              (WF_modifyCell hx _ _ _) (by omega)
            exact ⟨b', h1, h2, OpensOnly_trans hbx (OpensOnly_trans hstep h3), by omega⟩
          · simp only [hz, if_false]
            exact ⟨_, rfl, WF_modifyCell hx _ _ _, OpensOnly_trans hbx hstep, by omega⟩
        · simp only [hopen, Bool.false_eq_true, if_false]
          exact ⟨x, rfl, hx, hbx, hcx⟩
      · simp only [hg, Bool.false_eq_true, if_false]
        exact ⟨x, rfl, hx, hbx, hcx⟩

/-! ## Left click -/

theorem OpenedMore_refl (b : Board) : OpenedMore b b := fun _ _ => Or.inl rfl

theorem OpenedMore_trans {b b' b'' : Board} (h1 : OpenedMore b b') (h2 : OpenedMore b' b'') :
    OpenedMore b b'' := by
  intro r c
  rcases h2 r c with h | ⟨cell', hc', ho', hget'⟩
  · rw [h]
    exact h1 r c
  · rcases h1 r c with h | ⟨cell, hc, ho, hget⟩
    · rw [h] at hc'
      exact Or.inr ⟨cell', hc', ho', hget'⟩
    · rw [hget] at hc'
      cases hc'
      cases ho'

theorem OpensOnly_openedMore {b b' : Board} (h : OpensOnly b b') : OpenedMore b b' := by
  intro r c
  rcases h r c with h | ⟨cell, hc, ho, _, hget⟩
  · exact Or.inl h
  · exact Or.inr ⟨cell, hc, ho, hget⟩

theorem OpenedMore_of_revealMine {b b' : Board}
    (h : ∀ r c, getCell b' r c = (getCell b r c).map revealMine) : OpenedMore b b' := by
  intro r c
  rw [h]
  cases hcell : getCell b r c with
  | none => exact Or.inl rfl
  | some cell =>
    by_cases hm : cell.mine = true
    · cases ho : cell.opened with
      | false => exact Or.inr ⟨cell, rfl, ho, by simp [revealMine, hm]⟩
      | true =>
        refine Or.inl ?_
        have : revealMine cell = cell := by
          cases cell
          simp_all [revealMine]
        simp [this]
    · exact Or.inl (by simp [revealMine, hm])

theorem OpenedMore_modifyCell {b : Board} {r c : Nat} {cell : Cell}
    (h : getCell b r c = some cell) (ho : cell.opened = false) :
    OpenedMore b (modifyCell b r c (fun x => { x with opened := true })) := by
  intro r' c'
  rw [getCell_modifyCell]
  split
  · next hrc =>
    obtain ⟨rfl, rfl⟩ := hrc
    exact Or.inr ⟨cell, h, ho, by rw [h]; rfl⟩
  · exact Or.inl rfl

/-- A click that `handleClick` ignores: the session is over, or the cell is opened or
flagged. -/
theorem handleClick_ignored (s : State) (r c : Nat) (cell : Cell)
    (hcell : getCell s.board r c = some cell)
    (h : cell.opened = true ∨ cell.flagged = true ∨ s.gameOver = true ∨ s.gameWon = true) :
    handleClick s r c = some s := by
  unfold handleClick
  by_cases ht : (s.gameOver || s.gameWon) = true
  · simp [ht]
  · have hover : s.gameOver = false := by cases h' : s.gameOver <;> simp_all
    have hwon : s.gameWon = false := by cases h' : s.gameWon <;> simp_all
    have : (cell.opened || cell.flagged) = true := by
      rcases h with h | h | h | h <;> simp_all
    simp [hover, hwon, hcell, this]

/-- A click on an unopened, unflagged mine while the session is in progress. -/
theorem handleClick_mine (s : State) (r c : Nat) (cell : Cell)
    (hb : WF s.rows s.cols s.board) (hover : s.gameOver = false) (hwon : s.gameWon = false)
    (hcell : getCell s.board r c = some cell) (ho : cell.opened = false)
    (hf : cell.flagged = false) (hm : cell.mine = true) :
    ∃ b', handleClick s r c = some { s with board := b', gameOver := true } ∧
      WF s.rows s.cols b' ∧
      ∀ r' c', getCell b' r' c' =
        (getCell (modifyCell s.board r c (fun x => { x with opened := true })) r' c').map
          revealMine := by
  obtain ⟨b', h1, h2, h3⟩ := revealAllMines_cells s.rows s.cols
    (modifyCell s.board r c (fun x => { x with opened := true })) (WF_modifyCell hb _ _ _)
  refine ⟨b', ?_, h2, h3⟩
  simp [handleClick, hover, hwon, hcell, ho, hf, hm, h1]

/-- A click on an unopened, unflagged cell that is not a mine while the session is in
progress. -/
theorem handleClick_safe (s : State) (r c : Nat) (cell : Cell)
    (hb : WF s.rows s.cols s.board) (hover : s.gameOver = false) (hwon : s.gameWon = false)
    (hcell : getCell s.board r c = some cell) (ho : cell.opened = false)
    (hf : cell.flagged = false) (hm : cell.mine = false) :
    ∃ b' won, handleClick s r c = some { s with board := b', gameWon := won } ∧
      WF s.rows s.cols b' ∧
      OpensOnly (modifyCell s.board r c (fun x => { x with opened := true })) b' ∧
      (won = true ↔ AllNonMinesOpened b') := by
  have hb1 : WF s.rows s.cols (modifyCell s.board r c (fun x => { x with opened := true })) :=
    WF_modifyCell hb _ _ _
  have hfill : ∃ b', (if cell.adjacentMines = 0 then
        openAdjacentCells s.rows s.cols (s.rows * s.cols + 1)
          (modifyCell s.board r c (fun x => { x with opened := true })) r c
      else some (modifyCell s.board r c (fun x => { x with opened := true }))) = some b' ∧
      WF s.rows s.cols b' ∧
      OpensOnly (modifyCell s.board r c (fun x => { x with opened := true })) b' := by
    by_cases hz : cell.adjacentMines = 0
    · have hle := countCells_le (fun x => !x.opened) hb1
      obtain ⟨b', h1, h2, h3, _⟩ := openAdjacentCells_spec s.rows s.cols (s.rows * s.cols + 1)
        (modifyCell s.board r c (fun x => { x with opened := true })) r c hb1
        (Nat.lt_succ_of_le hle)
      exact ⟨b', by simp [hz, h1], h2, h3⟩
    · exact ⟨_, by simp [hz], hb1, OpensOnly_refl _⟩
  obtain ⟨b', h1, h2, h3⟩ := hfill
  obtain ⟨s', k1, k2, k3, k4, k5, k6, k7, k8, k9, k10⟩ :=
    checkWinCondition_spec { s with board := b' } h2
  refine ⟨b', s'.gameWon, ?_, h2, h3, ?_⟩
  · have hs' : s' = { s with board := b', gameWon := s'.gameWon } := by
      cases s'
      simp_all
    rw [← hs']
    simp only [handleClick, hover, hwon, hcell, ho, hf, hm, Bool.or_self, Bool.false_eq_true,
      if_false, h1]
    simp only [hover, hwon] at k1
    exact k1
  · simpa [hwon] using k10

/-- On a well-formed session and in-range coordinates `handleClick` returns, and the new
session differs from the old one at most in `gameOver`, `gameWon` and in cells that went from
unopened to opened. -/
theorem handleClick_total (s : State) (r c : Nat) (hb : WF s.rows s.cols s.board)
    (hr : r < s.rows) (hc : c < s.cols) :
    ∃ s', handleClick s r c = some s' ∧ s'.rows = s.rows ∧ s'.cols = s.cols ∧
      s'.totalMines = s.totalMines ∧ s'.flagsPlaced = s.flagsPlaced ∧
      s'.tagsPlaced = s.tagsPlaced ∧ s'.tagMode = s.tagMode ∧
      WF s.rows s.cols s'.board ∧ OpenedMore s.board s'.board := by
  obtain ⟨cell, hcell⟩ := getCell_isSome hb hr hc
  by_cases hign : cell.opened = true ∨ cell.flagged = true ∨ s.gameOver = true ∨
      s.gameWon = true
  · exact ⟨s, handleClick_ignored s r c cell hcell hign, rfl, rfl, rfl, rfl, rfl, rfl, hb,
      OpenedMore_refl _⟩
  · have ho : cell.opened = false := by cases h : cell.opened <;> simp_all
    have hf : cell.flagged = false := by cases h : cell.flagged <;> simp_all
    have hover : s.gameOver = false := by cases h : s.gameOver <;> simp_all
    have hwon : s.gameWon = false := by cases h : s.gameWon <;> simp_all
    have hfirst := OpenedMore_modifyCell hcell ho
    cases hm : cell.mine with
    | true =>
      obtain ⟨b', h1, h2, h3⟩ := handleClick_mine s r c cell hb hover hwon hcell ho hf hm
      exact ⟨_, h1, rfl, rfl, rfl, rfl, rfl, rfl, h2,
        OpenedMore_trans hfirst (OpenedMore_of_revealMine h3)⟩
    | false =>
      obtain ⟨b', won, h1, h2, h3, _⟩ := handleClick_safe s r c cell hb hover hwon hcell ho hf hm
      exact ⟨_, h1, rfl, rfl, rfl, rfl, rfl, rfl, h2, OpenedMore_trans hfirst (OpensOnly_openedMore h3)⟩

/-! ## Right click -/

/-- The cell that `handleRightClick` leaves in place of `cell`. -/
theorem handleRightClick_spec (s : State) (r c : Nat) (cell : Cell)
    (hcell : getCell s.board r c = some cell) :
    ∃ s' cell', handleRightClick s r c = some s' ∧ s'.rows = s.rows ∧ s'.cols = s.cols ∧
      s'.totalMines = s.totalMines ∧ s'.gameOver = s.gameOver ∧ s'.gameWon = s.gameWon ∧
      s'.tagMode = s.tagMode ∧ s'.board = modifyCell s.board r c (fun _ => cell') ∧
      cell'.mine = cell.mine ∧ cell'.opened = cell.opened ∧
      cell'.adjacentMines = cell.adjacentMines ∧
      (¬ (cell.flagged = true ∧ cell.tagged = true) →
        ¬ (cell'.flagged = true ∧ cell'.tagged = true)) := by
  have hsame : ∃ s' cell', some s = some s' ∧ s'.rows = s.rows ∧ s'.cols = s.cols ∧
      s'.totalMines = s.totalMines ∧ s'.gameOver = s.gameOver ∧ s'.gameWon = s.gameWon ∧
      s'.tagMode = s.tagMode ∧ s'.board = modifyCell s.board r c (fun _ => cell') ∧
      cell'.mine = cell.mine ∧ cell'.opened = cell.opened ∧
      cell'.adjacentMines = cell.adjacentMines ∧
      (¬ (cell.flagged = true ∧ cell.tagged = true) →
        ¬ (cell'.flagged = true ∧ cell'.tagged = true)) :=
    ⟨s, cell, rfl, rfl, rfl, rfl, rfl, rfl, rfl, (modifyCell_id _ hcell rfl).symm, rfl, rfl, rfl,
      fun h => h⟩
  unfold handleRightClick
  rw [hcell]
  simp only
  split
  · exact hsame
  · split
    · exact hsame
    · split
      · split
        · exact ⟨_, { cell with tagged := false }, rfl, rfl, rfl, rfl, rfl, rfl, rfl,
            modifyCell_congr _ _ hcell rfl, rfl, rfl, rfl, fun _ h => by simp at h⟩
        · split
          · next hfl =>
            exact ⟨_, { cell with tagged := true }, rfl, rfl, rfl, rfl, rfl, rfl, rfl,
              modifyCell_congr _ _ hcell rfl, rfl, rfl, rfl, fun _ h => by simp_all⟩
          · exact hsame
      · split
        · exact ⟨_, { cell with flagged := false }, rfl, rfl, rfl, rfl, rfl, rfl, rfl,
            modifyCell_congr _ _ hcell rfl, rfl, rfl, rfl, fun _ h => by simp at h⟩
        · split
          · next htg =>
            exact ⟨_, { cell with flagged := true }, rfl, rfl, rfl, rfl, rfl, rfl, rfl,
              modifyCell_congr _ _ hcell rfl, rfl, rfl, rfl, fun _ h => by simp_all⟩
          · exact hsame

/-! ## Reachable sessions -/

theorem NoFlagTag_of_OpenedMore {b b' : Board} (h : OpenedMore b b') (hb : NoFlagTag b) :
    NoFlagTag b' := by
  intro r c x hx
  rcases h r c with h | ⟨y, hy, _, hget⟩
  · exact hb r c x (h ▸ hx)
  · rw [hget] at hx
    cases hx
    exact hb r c y hy

theorem placeMinesLoop_cells (P : Cell → Prop) (hP : ∀ x, P x → P { x with mine := true })
    (total : Int) (samples : List (Nat × Nat)) :
    ∀ (placed : Int) (b b' : Board), (∀ r c x, getCell b r c = some x → P x) →
      placeMinesLoop total samples placed b = some b' →
      ∀ r c x, getCell b' r c = some x → P x := by
  induction samples with
  | nil =>
    intro placed b b' hb h
    unfold placeMinesLoop at h
    split at h
    · cases h
    · cases h
      exact hb
  | cons p rest ih =>
    obtain ⟨r, c⟩ := p
    intro placed b b' hb h
    unfold placeMinesLoop at h
    split at h
    · cases hcell : getCell b r c with
      | none => rw [hcell] at h; cases h
      | some cell =>
        rw [hcell] at h
        simp only at h
        split at h
        · refine ih (placed + 1) _ b' ?_ h
          intro r' c' x hx
          rw [getCell_modifyCell] at hx
          split at hx
          · rw [hcell] at hx
            cases hx
            exact hP cell (hb r c cell hcell)
          · exact hb r' c' x hx
        · exact ih placed b b' hb h
    · cases h
      exact hb

/-- What `generateBoard` returns: a well-formed board of untouched cells, with the flags and
counters reset and the remaining variables kept. -/
theorem generateBoard_fresh (s0 : State) (samples : List (Nat × Nat)) (s : State)
    (h : generateBoard s0 samples = some s) :
    WF s.rows s.cols s.board ∧ s.rows = s0.rows ∧ s.cols = s0.cols ∧
      s.totalMines = s0.totalMines ∧ s.tagMode = s0.tagMode ∧
      s.gameOver = false ∧ s.gameWon = false ∧ s.flagsPlaced = 0 ∧ s.tagsPlaced = 0 ∧
      ∀ r c x, getCell s.board r c = some x →
        x.opened = false ∧ x.flagged = false ∧ x.tagged = false := by
  cases hp : placeMines s0.totalMines
      (List.replicate s0.rows (List.replicate s0.cols blankCell)) samples with
  | none => simp [generateBoard, hp] at h
  | some b1 =>
    obtain ⟨b2, _, _, hb2, hcells, hgen⟩ := generateBoard_eq s0 samples b1 hp
    rw [hgen] at h
    cases h
    refine ⟨hb2, rfl, rfl, rfl, rfl, rfl, rfl, rfl, rfl, ?_⟩
    intro r c x hx
    simp only [hcells] at hx
    cases hy : getCell b1 r c with
    | none => rw [hy] at hx; cases hx
    | some y =>
      rw [hy] at hx
      simp only [Option.map_some', Option.some.injEq] at hx
      have hfresh := placeMinesLoop_cells
        (fun x => x.opened = false ∧ x.flagged = false ∧ x.tagged = false) (fun _ h => h)
        s0.totalMines samples 0 _ b1
        (fun r c x hx => by rw [getCell_replicate blankCell hx]; exact ⟨rfl, rfl, rfl⟩)
        hp r c y hy
      subst hx
      unfold withAdjacency
      split
      · exact hfresh
      · exact hfresh

theorem Reachable_wf_noFlagTag {s : State} (h : Reachable s) :
    WF s.rows s.cols s.board ∧ NoFlagTag s.board := by
  induction h with
  | generate s0 samples s hgen =>
    obtain ⟨hwf, _, _, _, _, _, _, _, _, hfresh⟩ := generateBoard_fresh s0 samples s hgen
    exact ⟨hwf, fun r c x hx h => by simp [(hfresh r c x hx).2.1] at h⟩
  | click s r c s' _ hr hc hclick ih =>
    obtain ⟨s'', h1, h2, h3, _, _, _, _, h4, h5⟩ := handleClick_total s r c ih.1 hr hc
    rw [hclick] at h1
    cases h1
    exact ⟨by rw [h2, h3]; exact h4, NoFlagTag_of_OpenedMore h5 ih.2⟩
  | rightClick s r c s' _ hr hc hclick ih =>
    obtain ⟨cell, hcell⟩ := getCell_isSome ih.1 hr hc
    obtain ⟨s'', cell', h1, h2, h3, _, _, _, _, h4, _, _, _, h5⟩ :=
      handleRightClick_spec s r c cell hcell
    rw [hclick] at h1
    cases h1
    refine ⟨by rw [h2, h3, h4]; exact WF_modifyCell ih.1 _ _ _, ?_⟩
    rw [h4]
    intro r' c' x hx
    rw [getCell_modifyCell] at hx
    split at hx
    · rw [hcell] at hx
      cases hx
      exact h5 (ih.2 r c cell hcell)
    · exact ih.2 r' c' x hx
  | toggle s _ ih => exact ih

/-! ## Claims about board generation -/

/-- C1: on a `rows × cols` board with any assignment of mines, `calculateAdjacentMines`
returns a board in which every non-mine cell `(r, c)` has `adjacentMines` equal to the number
of offsets in `{-1, 0, 1} × {-1, 0, 1}` other than `(0, 0)` whose shifted position lies inside
the grid and is mined, and in which every cell has the `mine` field it had before. -/
theorem calculateAdjacentMines_counts (rows cols : Nat) (b : Board) (hb : WF rows cols b) :
    ∃ b', calculateAdjacentMines rows cols b = some b' ∧ WF rows cols b' ∧
      ∀ r c, r < rows → c < cols →
        ∃ cell cell', getCell b r c = some cell ∧ getCell b' r c = some cell' ∧
          cell'.mine = cell.mine ∧
          (cell.mine = false → cell'.adjacentMines = minedNeighbours rows cols b r c) := by
  obtain ⟨b', h1, h2, hcells⟩ := calculateAdjacentMines_cells rows cols b hb
  refine ⟨b', h1, h2, fun r c hr hc => ?_⟩
  obtain ⟨cell, hcell⟩ := getCell_isSome hb hr hc
  refine ⟨cell, withAdjacency rows cols b r c cell, hcell, by rw [hcells, hcell]; rfl,
    withAdjacency_mine _ _ _ _ _ _, fun hm => ?_⟩
  simp [withAdjacency, hm, countP_directions_eq]

/-- Witness for C1: the 2 × 2 board with one mine in a corner. -/
theorem calculateAdjacentMines_counts_witness :
    WF 2 2 cornerMineBoard ∧
    ∃ b', calculateAdjacentMines 2 2 cornerMineBoard = some b' ∧ WF 2 2 b' ∧
      ∀ r c, r < 2 → c < 2 →
        ∃ cell cell', getCell cornerMineBoard r c = some cell ∧ getCell b' r c = some cell' ∧
          cell'.mine = cell.mine ∧
          (cell.mine = false → cell'.adjacentMines = minedNeighbours 2 2 cornerMineBoard r c) :=
  ⟨by decide, calculateAdjacentMines_counts 2 2 cornerMineBoard (by decide)⟩

/-- C2: when `0 < totalMines` and the loop of `placeMines` finishes on the sampled
coordinates (it answers some board `b1`), `generateBoard` returns a session whose board has
exactly `totalMines` cells with `mine == true`. The bound `totalMines < rows * cols` and the
samples being in range are not needed as hypotheses: a loop that finishes has only read
existing cells and has found `totalMines` distinct ones. -/
theorem generateBoard_mineCount (s : State) (samples : List (Nat × Nat)) (b1 : Board)
    (hpos : 0 < s.totalMines)
    (hfin : placeMines s.totalMines (List.replicate s.rows (List.replicate s.cols blankCell))
      samples = some b1) :
    ∃ s', generateBoard s samples = some s' ∧ (mineCount s'.board : Int) = s.totalMines := by
  obtain ⟨b2, _, hb1, hb2, hcells, hgen⟩ := generateBoard_eq s samples b1 hfin
  refine ⟨_, hgen, ?_⟩
  have h1 := (placeMinesLoop_spec s.rows s.cols s.totalMines samples 0 _ b1
    (WF_replicate _ _ _) (by simp [mineCount, countCells_replicate, blankCell])
    (le_of_lt hpos) hfin).2
  have h2 : mineCount b2 = mineCount b1 := by
    refine countCells_congr _ hb1 hb2 (fun r c => ?_)
    rw [hcells]
    cases getCell b1 r c with
    | none => rfl
    | some cell => simp [withAdjacency_mine]
  simp only [h2, h1]

/-- Witness for C2: a 2 × 2 board with one mine, the first sample being `(0, 0)`. -/
theorem generateBoard_mineCount_witness :
    0 < freshSession.totalMines ∧
    placeMines freshSession.totalMines
      (List.replicate freshSession.rows (List.replicate freshSession.cols blankCell))
      [(0, 0), (1, 1)] = some cornerMineBoard ∧
    ∃ s', generateBoard freshSession [(0, 0), (1, 1)] = some s' ∧
      (mineCount s'.board : Int) = freshSession.totalMines :=
  ⟨by decide, by decide,
    generateBoard_mineCount freshSession [(0, 0), (1, 1)] cornerMineBoard (by decide) (by decide)⟩

theorem OpensOnly_flagged_unchanged {b b' : Board} (h : OpensOnly b b') {r c : Nat} {x : Cell}
    (hx : getCell b r c = some x) (hf : x.flagged = true) : getCell b' r c = some x := by
  rcases h r c with h | ⟨y, hy, _, hyf, _⟩
  · rw [h, hx]
  · rw [hx] at hy
    cases hy
    rw [hf] at hyf
    cases hyf

/-! ## Claims about revealing -/

/-- C3: in a session in progress, `handleClick` on an unopened, unflagged mine returns a
session with `gameOver` true and `gameWon` false in which every mined cell, flagged or not,
is opened: every cell mined before the call is still mined and is opened, and the board holds
no unopened mine. -/
theorem handleClick_mine_loses (s : State) (r c : Nat) (cell : Cell)
    (hb : WF s.rows s.cols s.board) (hover : s.gameOver = false) (hwon : s.gameWon = false)
    (hcell : getCell s.board r c = some cell) (ho : cell.opened = false)
    (hf : cell.flagged = false) (hm : cell.mine = true) :
    ∃ s', handleClick s r c = some s' ∧ s'.gameOver = true ∧ s'.gameWon = false ∧
      (∀ r' c' x, getCell s.board r' c' = some x → x.mine = true →
        ∃ x', getCell s'.board r' c' = some x' ∧ x'.mine = true ∧ x'.opened = true) ∧
      (∀ r' c' x', getCell s'.board r' c' = some x' → x'.mine = true → x'.opened = true) := by
  obtain ⟨b', h1, _, h3⟩ := handleClick_mine s r c cell hb hover hwon hcell ho hf hm
  refine ⟨_, h1, rfl, hwon, ?_, ?_⟩
  · intro r' c' x hx hxm
    simp only [h3, getCell_modifyCell]
    split
    · next hrc =>
      obtain ⟨rfl, rfl⟩ := hrc
      rw [hx]
      exact ⟨_, rfl, by simp [revealMine, hxm], by simp [revealMine, hxm]⟩
    · rw [hx]
      exact ⟨_, rfl, by simp [revealMine, hxm], by simp [revealMine, hxm]⟩
  · intro r' c' x' hx' hxm
    simp only [h3] at hx'
    cases hy : getCell (modifyCell s.board r c (fun x => { x with opened := true })) r' c' with
    | none => rw [hy] at hx'; cases hx'
    | some y =>
      rw [hy] at hx'
      simp only [Option.map_some', Option.some.injEq] at hx'
      subst hx'
      by_cases hym : y.mine = true
      · simp [revealMine, hym]
      · simp [revealMine, hym] at hxm

/-- Witness for C3: clicking the mine of the 2-cell board. -/
theorem handleClick_mine_loses_witness :
    WF twoCellSession.rows twoCellSession.cols twoCellSession.board ∧
    getCell twoCellSession.board 0 0 = some mineCell ∧
    ∃ s', handleClick twoCellSession 0 0 = some s' ∧ s'.gameOver = true ∧ s'.gameWon = false ∧
      (∀ r' c' x, getCell twoCellSession.board r' c' = some x → x.mine = true →
        ∃ x', getCell s'.board r' c' = some x' ∧ x'.mine = true ∧ x'.opened = true) ∧
      (∀ r' c' x', getCell s'.board r' c' = some x' → x'.mine = true → x'.opened = true) :=
  ⟨by decide, by decide,
    handleClick_mine_loses twoCellSession 0 0 mineCell (by decide) (by decide) (by decide)
      (by decide) (by decide) (by decide) (by decide)⟩

/-- C4: in a session in progress, `handleClick` on an unopened, unflagged cell that is not a
mine returns a session, still not lost, whose `gameWon` is true exactly when every non-mine
cell of the resulting board is opened; in particular, when every other non-mine cell was
already opened, `gameWon` is true. -/
theorem handleClick_safe_win_iff (s : State) (r c : Nat) (cell : Cell)
    (hb : WF s.rows s.cols s.board) (hover : s.gameOver = false) (hwon : s.gameWon = false)
    (hcell : getCell s.board r c = some cell) (ho : cell.opened = false)
    (hf : cell.flagged = false) (hm : cell.mine = false) :
    ∃ s', handleClick s r c = some s' ∧ s'.gameOver = false ∧
      (s'.gameWon = true ↔ AllNonMinesOpened s'.board) ∧
      ((∀ r' c' x, getCell s.board r' c' = some x → x.mine = false → (r', c') ≠ (r, c) →
          x.opened = true) → s'.gameWon = true) := by
  obtain ⟨b', won, h1, _, h3, h4⟩ := handleClick_safe s r c cell hb hover hwon hcell ho hf hm
  refine ⟨_, h1, hover, h4, fun hlast => h4.2 ?_⟩
  intro r' c' x' hx' hxm
  have hbase : ∀ y, getCell (modifyCell s.board r c (fun x => { x with opened := true })) r' c'
      = some y → y.mine = false → y.opened = true := by
    intro y hy hym
    rw [getCell_modifyCell] at hy
    split at hy
    · rw [hcell] at hy
      cases hy
      rfl
    · next hne =>
      exact hlast r' c' y hy hym (fun h => hne ⟨congrArg Prod.fst h, congrArg Prod.snd h⟩)
  rcases h3 r' c' with h | ⟨y, _, _, _, hget⟩
  · exact hbase x' (h ▸ hx') hxm
  · rw [hget] at hx'
    cases hx'
    rfl

/-- Witness for C4: on the 2-cell board with one mine, revealing the non-mine cell. -/
theorem handleClick_safe_win_iff_witness :
    WF twoCellSession.rows twoCellSession.cols twoCellSession.board ∧
    getCell twoCellSession.board 0 1 = some oneCell ∧
    ∃ s', handleClick twoCellSession 0 1 = some s' ∧ s'.gameOver = false ∧
      (s'.gameWon = true ↔ AllNonMinesOpened s'.board) ∧
      ((∀ r' c' x, getCell twoCellSession.board r' c' = some x → x.mine = false →
          (r', c') ≠ (0, 1) → x.opened = true) → s'.gameWon = true) :=
  ⟨by decide, by decide,
    handleClick_safe_win_iff twoCellSession 0 1 oneCell (by decide) (by decide) (by decide)
      (by decide) (by decide) (by decide) (by decide)⟩

/-- The scenario of C4 evaluated: on the 2-cell board with one mine, revealing the non-mine
cell yields `Won` at once. -/
theorem handleClick_twoCell_won :
    handleClick twoCellSession 0 1 =
      some { twoCellSession with board := [[mineCell, { oneCell with opened := true }]],
                                 gameWon := true } := by
  decide

/-- C5: on a `rows × cols` board, `openAdjacentCells(r, c)` returns for every recursion
budget above the number of unopened cells, and every cell that was flagged and unopened
before the call is the same cell, hence unopened, after it; and `handleClick` on a cell that
is not a mine returns a session in which every cell that was flagged and unopened is
unchanged, flood fill included. -/
theorem openAdjacentCells_keeps_flagged (s : State) (r c : Nat)
    (hb : WF s.rows s.cols s.board) :
    (∀ fuel, unopenedCount s.board < fuel →
      ∃ b', openAdjacentCells s.rows s.cols fuel s.board r c = some b' ∧
        ∀ r' c' x, getCell s.board r' c' = some x → x.flagged = true → x.opened = false →
          getCell b' r' c' = some x) ∧
    (∀ cell, getCell s.board r c = some cell → cell.mine = false →
      ∃ s', handleClick s r c = some s' ∧
        ∀ r' c' x, getCell s.board r' c' = some x → x.flagged = true → x.opened = false →
          getCell s'.board r' c' = some x) := by
  constructor
  · intro fuel hfuel
    obtain ⟨b', h1, _, h3, _⟩ := openAdjacentCells_spec s.rows s.cols fuel s.board r c hb hfuel
    exact ⟨b', h1, fun r' c' x hx hxf _ => OpensOnly_flagged_unchanged h3 hx hxf⟩
  · intro cell hcell hm
    by_cases hign : cell.opened = true ∨ cell.flagged = true ∨ s.gameOver = true ∨
        s.gameWon = true
    · exact ⟨s, handleClick_ignored s r c cell hcell hign, fun _ _ x hx _ _ => hx⟩
    · have ho : cell.opened = false := by cases h : cell.opened <;> simp_all
      have hf : cell.flagged = false := by cases h : cell.flagged <;> simp_all
      have hover : s.gameOver = false := by cases h : s.gameOver <;> simp_all
      have hwon : s.gameWon = false := by cases h : s.gameWon <;> simp_all
      obtain ⟨b', won, h1, _, h3, _⟩ := handleClick_safe s r c cell hb hover hwon hcell ho hf hm
      refine ⟨_, h1, fun r' c' x hx hxf _ => OpensOnly_flagged_unchanged h3 ?_ hxf⟩
      rw [getCell_modifyCell]
      split
      · next hrc =>
        obtain ⟨rfl, rfl⟩ := hrc
        rw [hcell] at hx
        cases hx
        rw [hf] at hxf
        cases hxf
      · exact hx

/-- Witness for C5: a 1 × 3 board without mines whose last cell is flagged; the flood fill
from the first cell stops at the flag. -/
theorem openAdjacentCells_keeps_flagged_witness :
    WF flaggedSession.rows flaggedSession.cols flaggedSession.board ∧
    handleClick flaggedSession 0 0 =
      some { flaggedSession with
        board := [[{ blankCell with opened := true }, { blankCell with opened := true },
                   { blankCell with flagged := true }]] } ∧
    ((∀ fuel, unopenedCount flaggedSession.board < fuel →
      ∃ b', openAdjacentCells flaggedSession.rows flaggedSession.cols fuel
          flaggedSession.board 0 0 = some b' ∧
        ∀ r' c' x, getCell flaggedSession.board r' c' = some x → x.flagged = true →
          x.opened = false → getCell b' r' c' = some x) ∧
    (∀ cell, getCell flaggedSession.board 0 0 = some cell → cell.mine = false →
      ∃ s', handleClick flaggedSession 0 0 = some s' ∧
        ∀ r' c' x, getCell flaggedSession.board r' c' = some x → x.flagged = true →
          x.opened = false → getCell s'.board r' c' = some x)) :=
  ⟨by decide, by decide, openAdjacentCells_keeps_flagged flaggedSession 0 0 (by decide)⟩

/-! ## Claims about marking -/

/-- C6: in a session in progress with `tagMode` off in which no cell is both flagged and
tagged, calling `handleRightClick` twice on an unopened cell returns the whole session state
(the cell, `flagsPlaced` and everything else) to what it was before the first call. -/
theorem handleRightClick_twice (s : State) (r c : Nat) (cell : Cell)
    (hover : s.gameOver = false) (hwon : s.gameWon = false) (hmode : s.tagMode = false)
    (hinv : ∀ r' c' x, getCell s.board r' c' = some x → ¬ (x.flagged = true ∧ x.tagged = true))
    (hcell : getCell s.board r c = some cell) (ho : cell.opened = false) :
    ∃ s1, handleRightClick s r c = some s1 ∧ handleRightClick s1 r c = some s := by
  cases hfl : cell.flagged with
  | true =>
    have htg : cell.tagged = false := by
      cases h : cell.tagged with
      | false => rfl
      | true => exact absurd ⟨hfl, h⟩ (hinv r c cell hcell)
    refine ⟨{ s with board := modifyCell s.board r c (fun x => { x with flagged := false }),
                     flagsPlaced := s.flagsPlaced - 1 }, ?_, ?_⟩
    · simp [handleRightClick, hover, hwon, hmode, hcell, ho, hfl]
    · have hback : modifyCell (modifyCell s.board r c (fun x => { x with flagged := false })) r c
          (fun x => { x with flagged := true }) = s.board := by
        rw [modifyCell_modifyCell _ _ hcell]
        exact modifyCell_id _ hcell (by cases cell; simp_all)
      simp only [handleRightClick, hover, hwon, hmode, getCell_modifyCell_self _ hcell, ho, htg,
        Bool.or_self, Bool.false_eq_true, if_false, Bool.not_false, if_true, hback,
        Int.sub_add_cancel]
      cases s
      simp_all
  | false =>
    cases htg : cell.tagged with
    | true =>
      exact ⟨s, by simp [handleRightClick, hover, hwon, hmode, hcell, ho, hfl, htg],
        by simp [handleRightClick, hover, hwon, hmode, hcell, ho, hfl, htg]⟩
    | false =>
      refine ⟨{ s with board := modifyCell s.board r c (fun x => { x with flagged := true }),
                       flagsPlaced := s.flagsPlaced + 1 }, ?_, ?_⟩
      · simp [handleRightClick, hover, hwon, hmode, hcell, ho, hfl, htg]
      · have hback : modifyCell (modifyCell s.board r c (fun x => { x with flagged := true })) r c
            (fun x => { x with flagged := false }) = s.board := by
          rw [modifyCell_modifyCell _ _ hcell]
          exact modifyCell_id _ hcell (by cases cell; simp_all)
        simp only [handleRightClick, hover, hwon, hmode, getCell_modifyCell_self _ hcell, ho,
          Bool.or_self, Bool.false_eq_true, if_false, if_true, hback, Int.add_sub_cancel]
        cases s
        simp_all

/-- Witness for C6: flagging and unflagging an untouched cell of the 2-cell board. -/
theorem handleRightClick_twice_witness :
    getCell twoCellSession.board 0 0 = some mineCell ∧
    ∃ s1, handleRightClick twoCellSession 0 0 = some s1 ∧
      handleRightClick s1 0 0 = some twoCellSession :=
  ⟨by decide,
    handleRightClick_twice twoCellSession 0 0 mineCell (by decide) (by decide) (by decide)
      (by
        intro r' c' x hx
        have h0 : x.flagged = false := by
          match r', c', hx with
          | 0, 0, hx => cases hx; rfl
          | 0, 1, hx => cases hx; rfl
          | 0, (_ + 2), hx => cases hx
          | (_ + 1), _, hx => cases hx
        simp [h0])
      (by decide) (by decide)⟩

/-- C7: in a session in progress, `handleRightClick` with `tagMode` off on an unopened cell
that is tagged and not flagged changes nothing (the cell stays tagged and unflagged, and the
counters and every other cell keep their values); with `tagMode` on, `handleRightClick` on an
unopened cell that is flagged and not tagged changes nothing either. -/
theorem handleRightClick_blocked (s : State) (r c : Nat) (cell : Cell)
    (hover : s.gameOver = false) (hwon : s.gameWon = false)
    (hcell : getCell s.board r c = some cell) (ho : cell.opened = false) :
    (s.tagMode = false → cell.tagged = true → cell.flagged = false →
      handleRightClick s r c = some s) ∧
    (s.tagMode = true → cell.flagged = true → cell.tagged = false →
      handleRightClick s r c = some s) := by
  constructor
  · intro hmode htg hfl
    simp [handleRightClick, hover, hwon, hmode, hcell, ho, hfl, htg]
  · intro hmode hfl htg
    simp [handleRightClick, hover, hwon, hmode, hcell, ho, hfl, htg]

/-- Witness for C7: flagging a tagged cell, and tagging a flagged cell after `toggleTagMode`. -/
theorem handleRightClick_blocked_witness :
    handleRightClick markedSession 0 0 = some markedSession ∧
    handleRightClick (toggleTagMode markedSession) 0 1 = some (toggleTagMode markedSession) :=
  ⟨(handleRightClick_blocked markedSession 0 0 { oneCell with tagged := true } (by decide)
      (by decide) (by decide) (by decide)).1 (by decide) (by decide) (by decide),
   (handleRightClick_blocked (toggleTagMode markedSession) 0 1 { mineCell with flagged := true }
      (by decide) (by decide) (by decide) (by decide)).2 (by decide) (by decide) (by decide)⟩

/-! ## Claims about sessions -/

/-- C8: in every state reachable from `generateBoard` by `handleClick`, `handleRightClick`
and `toggleTagMode` calls at in-range coordinates, no cell is both flagged and tagged. -/
theorem reachable_noFlagTag (s : State) (h : Reachable s) : NoFlagTag s.board :=
  (Reachable_wf_noFlagTag h).2

/-- Witness for C8: the session reached by generating a 2 × 2 board and flagging a corner. -/
theorem reachable_noFlagTag_witness :
    Reachable flaggedCornerSession ∧ NoFlagTag flaggedCornerSession.board :=
  have hreach : Reachable flaggedCornerSession :=
    Reachable.rightClick generatedSession 1 1 flaggedCornerSession
      (Reachable.generate freshSession [(0, 0)] generatedSession (by decide))
      (by decide) (by decide) (by decide)
  ⟨hreach, reachable_noFlagTag flaggedCornerSession hreach⟩

/-- C9: on a `rows × cols` board and in-range coordinates, `handleClick` (with its flood fill
and its reveal of all mines) and `handleRightClick` return a session in which every cell that
was opened before the call is opened. -/
theorem opened_never_reverts (s : State) (r c : Nat) (hb : WF s.rows s.cols s.board)
    (hr : r < s.rows) (hc : c < s.cols) :
    (∃ s', handleClick s r c = some s' ∧
      ∀ r' c' x, getCell s.board r' c' = some x → x.opened = true →
        ∃ x', getCell s'.board r' c' = some x' ∧ x'.opened = true) ∧
    (∃ s', handleRightClick s r c = some s' ∧
      ∀ r' c' x, getCell s.board r' c' = some x → x.opened = true →
        ∃ x', getCell s'.board r' c' = some x' ∧ x'.opened = true) := by
  constructor
  · obtain ⟨s', h1, _, _, _, _, _, _, _, h2⟩ := handleClick_total s r c hb hr hc
    refine ⟨s', h1, fun r' c' x hx hxo => ?_⟩
    rcases h2 r' c' with h | ⟨y, _, _, hget⟩
    · exact ⟨x, by rw [h, hx], hxo⟩
    · exact ⟨_, hget, rfl⟩
  · obtain ⟨cell, hcell⟩ := getCell_isSome hb hr hc
    obtain ⟨s', cell', h1, _, _, _, _, _, _, h2, _, h3, _, _⟩ :=
      handleRightClick_spec s r c cell hcell
    refine ⟨s', h1, fun r' c' x hx hxo => ?_⟩
    rw [h2, getCell_modifyCell]
    split
    · next hrc =>
      obtain ⟨rfl, rfl⟩ := hrc
      rw [hcell] at hx
      cases hx
      exact ⟨cell', by rw [hcell]; rfl, by rw [h3, hxo]⟩
    · exact ⟨x, hx, hxo⟩

/-- Witness for C9: a click on the mine next to an opened cell. -/
theorem opened_never_reverts_witness :
    WF openedSession.rows openedSession.cols openedSession.board ∧
    (∃ s', handleClick openedSession 0 1 = some s' ∧
      ∀ r' c' x, getCell openedSession.board r' c' = some x → x.opened = true →
        ∃ x', getCell s'.board r' c' = some x' ∧ x'.opened = true) ∧
    (∃ s', handleRightClick openedSession 0 1 = some s' ∧
      ∀ r' c' x, getCell openedSession.board r' c' = some x → x.opened = true →
        ∃ x', getCell s'.board r' c' = some x' ∧ x'.opened = true) :=
  ⟨by decide, opened_never_reverts openedSession 0 1 (by decide) (by decide) (by decide)⟩

/-- C10: when the target cell is already opened, or is flagged, or the session is over
(`gameOver` or `gameWon`), `handleClick(r, c)` returns the session it was given: the board,
`gameOver`, `gameWon`, `flagsPlaced` and `tagsPlaced` are unchanged. -/
theorem handleClick_noop (s : State) (r c : Nat) (cell : Cell)
    (hcell : getCell s.board r c = some cell)
    (h : cell.opened = true ∨ cell.flagged = true ∨ s.gameOver = true ∨ s.gameWon = true) :
    handleClick s r c = some s :=
  handleClick_ignored s r c cell hcell h

/-- Witness for C10: a click on the flagged cell of `flaggedCornerSession`. -/
theorem handleClick_noop_witness :
    getCell flaggedCornerSession.board 1 1 = some { oneCell with flagged := true } ∧
    handleClick flaggedCornerSession 1 1 = some flaggedCornerSession :=
  ⟨by decide,
    handleClick_noop flaggedCornerSession 1 1 { oneCell with flagged := true } (by decide)
      (Or.inr (Or.inl (by decide)))⟩

/-! ## Claims about guards and status -/

theorem handleClick_terminal (s : State) (r c : Nat)
    (h : s.gameOver = true ∨ s.gameWon = true) : handleClick s r c = some s := by
  unfold handleClick
  rcases h with h | h <;> simp [h]

theorem handleRightClick_ignored (s : State) (r c : Nat) (cell : Cell)
    (hcell : getCell s.board r c = some cell)
    (h : cell.opened = true ∨ s.gameOver = true ∨ s.gameWon = true) :
    handleRightClick s r c = some s := by
  unfold handleRightClick
  by_cases ht : (s.gameOver || s.gameWon) = true
  · simp [ht]
  · have ho : cell.opened = true := by
      rcases h with h | h | h
      · exact h
      · simp [h] at ht
      · simp [h] at ht
    simp [ht, hcell, ho]

/-- C11: when the target cell is opened, or the session is over (`gameOver` or `gameWon`),
`handleRightClick` on `(r, c)` returns the session it was given, whatever `tagMode` is: the
board, `flagsPlaced`, `tagsPlaced`, `gameOver` and `gameWon` are unchanged. -/
theorem handleRightClick_noop (s : State) (r c : Nat) (cell : Cell)
    (hcell : getCell s.board r c = some cell)
    (h : cell.opened = true ∨ s.gameOver = true ∨ s.gameWon = true) :
    handleRightClick s r c = some s :=
  handleRightClick_ignored s r c cell hcell h

/-- Witness for C11: a right click on the opened cell of `openedSession`, in flag mode. -/
theorem handleRightClick_noop_witness :
    getCell openedSession.board 0 0 = some { oneCell with opened := true } ∧
    handleRightClick openedSession 0 0 = some openedSession :=
  ⟨by decide,
    handleRightClick_noop openedSession 0 0 { oneCell with opened := true } (by decide)
      (Or.inl (by decide))⟩

/-- C12: at in-range coordinates `handleRightClick` returns a session with the `gameOver` and
`gameWon` it was given; `handleClick` called with `gameOver` true returns a session with
`gameOver` true and `gameWon` unchanged, and called with `gameWon` true returns a session
with `gameWon` true and `gameOver` unchanged. -/
theorem status_stays_terminal (s : State) (r c : Nat) (cell : Cell)
    (hcell : getCell s.board r c = some cell) :
    (∃ s', handleRightClick s r c = some s' ∧ s'.gameOver = s.gameOver ∧
      s'.gameWon = s.gameWon) ∧
    (s.gameOver = true → ∃ s', handleClick s r c = some s' ∧ s'.gameOver = true ∧
      s'.gameWon = s.gameWon) ∧
    (s.gameWon = true → ∃ s', handleClick s r c = some s' ∧ s'.gameWon = true ∧
      s'.gameOver = s.gameOver) := by
  refine ⟨?_, fun h => ⟨s, handleClick_terminal s r c (Or.inl h), h, rfl⟩,
    fun h => ⟨s, handleClick_terminal s r c (Or.inr h), h, rfl⟩⟩
  obtain ⟨s', _, h1, _, _, _, h2, h3, _⟩ := handleRightClick_spec s r c cell hcell
  exact ⟨s', h1, h2, h3⟩

/-- Witness for C12: the lost 2-cell session. -/
theorem status_stays_terminal_witness :
    getCell lostSession.board 0 1 = some oneCell ∧
    (∃ s', handleRightClick lostSession 0 1 = some s' ∧ s'.gameOver = lostSession.gameOver ∧
      s'.gameWon = lostSession.gameWon) ∧
    (lostSession.gameOver = true → ∃ s', handleClick lostSession 0 1 = some s' ∧
      s'.gameOver = true ∧ s'.gameWon = lostSession.gameWon) ∧
    (lostSession.gameWon = true → ∃ s', handleClick lostSession 0 1 = some s' ∧
      s'.gameWon = true ∧ s'.gameOver = lostSession.gameOver) :=
  ⟨by decide, status_stays_terminal lostSession 0 1 oneCell (by decide)⟩

/-- The won 2-cell session evaluated: a click and a right click on its unopened mine both
leave it as it is. -/
theorem wonSession_stays_won :
    handleClick wonSession 0 0 = some wonSession ∧
    handleRightClick wonSession 0 0 = some wonSession := by
  decide

/-- C13: whatever the prior session variables, when the loop of `placeMines` finishes on the
samples, `generateBoard` returns a session in progress with a new board: exactly `rows` rows
of exactly `cols` cells, every cell with `opened`, `flagged` and `tagged` false, `gameOver`
and `gameWon` false, `flagsPlaced` and `tagsPlaced` zero. The bounds
`0 < totalMines < rows * cols` are not needed as hypotheses. -/
theorem generateBoard_fresh_session (s0 : State) (samples : List (Nat × Nat)) (b1 : Board)
    (hfin : placeMines s0.totalMines (List.replicate s0.rows (List.replicate s0.cols blankCell))
      samples = some b1) :
    ∃ s, generateBoard s0 samples = some s ∧
      s.board.length = s0.rows ∧ (∀ row ∈ s.board, row.length = s0.cols) ∧
      (∀ row ∈ s.board, ∀ x ∈ row,
        x.opened = false ∧ x.flagged = false ∧ x.tagged = false) ∧
      s.gameOver = false ∧ s.gameWon = false ∧ s.flagsPlaced = 0 ∧ s.tagsPlaced = 0 := by
  obtain ⟨b2, _, _, _, _, hgen⟩ := generateBoard_eq s0 samples b1 hfin
  obtain ⟨hwf, hr, hc, _, _, h1, h2, h3, h4, hcells⟩ := generateBoard_fresh s0 samples _ hgen
  refine ⟨_, hgen, hwf.1, hwf.2, ?_, h1, h2, h3, h4⟩
  intro row hrow x hx
  obtain ⟨r, hr', hrowr⟩ := List.getElem_of_mem hrow
  obtain ⟨c, hc', hxc⟩ := List.getElem_of_mem hx
  refine hcells r c x (getCell_eq_some_iff.2 ⟨row, ?_, ?_⟩)
  · rw [← hrowr]; exact List.getElem?_eq_getElem hr'
  · rw [← hxc]; exact List.getElem?_eq_getElem hc'

/-- Witness for C13: generating the 2 × 2 board with one mine over a finished session. -/
theorem generateBoard_fresh_session_witness :
    placeMines freshSession.totalMines
      (List.replicate freshSession.rows (List.replicate freshSession.cols blankCell))
      [(0, 0)] = some cornerMineBoard ∧
    ∃ s, generateBoard freshSession [(0, 0)] = some s ∧
      s.board.length = freshSession.rows ∧ (∀ row ∈ s.board, row.length = freshSession.cols) ∧
      (∀ row ∈ s.board, ∀ x ∈ row,
        x.opened = false ∧ x.flagged = false ∧ x.tagged = false) ∧
      s.gameOver = false ∧ s.gameWon = false ∧ s.flagsPlaced = 0 ∧ s.tagsPlaced = 0 :=
  ⟨by decide, generateBoard_fresh_session freshSession [(0, 0)] cornerMineBoard (by decide)⟩

/-! ## Claims about reachable sessions -/

/-- On a well-formed session and in-range coordinates, `handleClick` returns a session in
which `gameOver` and `gameWon` are both true only if they already were. -/
theorem handleClick_status (s : State) (r c : Nat) (hb : WF s.rows s.cols s.board)
    (hr : r < s.rows) (hc : c < s.cols) :
    ∃ s', handleClick s r c = some s' ∧
      (s'.gameOver = true ∧ s'.gameWon = true → s.gameOver = true ∧ s.gameWon = true) := by
  obtain ⟨cell, hcell⟩ := getCell_isSome hb hr hc
  by_cases hign : cell.opened = true ∨ cell.flagged = true ∨ s.gameOver = true ∨
      s.gameWon = true
  · exact ⟨s, handleClick_ignored s r c cell hcell hign, fun h => h⟩
  · have ho : cell.opened = false := by cases h : cell.opened <;> simp_all
    have hf : cell.flagged = false := by cases h : cell.flagged <;> simp_all
    have hover : s.gameOver = false := by cases h : s.gameOver <;> simp_all
    have hwon : s.gameWon = false := by cases h : s.gameWon <;> simp_all
    cases hm : cell.mine with
    | true =>
      obtain ⟨b', h1, _, _⟩ := handleClick_mine s r c cell hb hover hwon hcell ho hf hm
      refine ⟨_, h1, fun h => ?_⟩
      have h2 : s.gameWon = true := h.2
      rw [hwon] at h2
      cases h2
    | false =>
      obtain ⟨b', won, h1, _, _, _⟩ := handleClick_safe s r c cell hb hover hwon hcell ho hf hm
      refine ⟨_, h1, fun h => ?_⟩
      have h2 : s.gameOver = true := h.1
      rw [hover] at h2
      cases h2

theorem Reachable_status {s : State} (h : Reachable s) :
    ¬ (s.gameOver = true ∧ s.gameWon = true) := by
  induction h with
  | generate s0 samples s hgen =>
    obtain ⟨_, _, _, _, _, h1, _, _, _, _⟩ := generateBoard_fresh s0 samples s hgen
    intro h
    rw [h1] at h
    cases h.1
  | click s r c s' hreach hr hc hclick ih =>
    obtain ⟨s'', h1, h2⟩ := handleClick_status s r c (Reachable_wf_noFlagTag hreach).1 hr hc
    rw [hclick] at h1
    cases h1
    exact fun h => ih (h2 h)
  | rightClick s r c s' hreach hr hc hclick ih =>
    obtain ⟨cell, hcell⟩ := getCell_isSome (Reachable_wf_noFlagTag hreach).1 hr hc
    obtain ⟨s'', _, h1, _, _, _, h2, h3, _⟩ := handleRightClick_spec s r c cell hcell
    rw [hclick] at h1
    cases h1
    rw [h2, h3]
    exact ih
  | toggle s _ ih => exact ih

/-- C20: in every state reachable from `generateBoard` by `handleClick`, `handleRightClick`
and `toggleTagMode` calls at in-range coordinates, `gameOver` and `gameWon` are not both
true. -/
theorem reachable_status_exclusive (s : State) (h : Reachable s) :
    ¬ (s.gameOver = true ∧ s.gameWon = true) :=
  Reachable_status h

theorem countCells_eq_zero (p : Cell → Bool) (b : Board)
    (h : ∀ r c x, getCell b r c = some x → p x = false) : countCells p b = 0 := by
  have hrows : ∀ row ∈ b, row.countP p = 0 := by
    intro row hrow
    obtain ⟨r, hr, hrowr⟩ := List.getElem_of_mem hrow
    rw [List.countP_eq_zero]
    intro x hx
    obtain ⟨c, hc, hxc⟩ := List.getElem_of_mem hx
    have := h r c x (getCell_eq_some_iff.2 ⟨row, by rw [← hrowr]; exact List.getElem?_eq_getElem hr,
      by rw [← hxc]; exact List.getElem?_eq_getElem hc⟩)
    simp [this]
  unfold countCells
  rw [List.sum_eq_zero]
  intro n hn
  obtain ⟨row, hrow, rfl⟩ := List.mem_map.1 hn
  exact hrows row hrow

/-- The effect of `handleRightClick` on the two counters, against the marks of the cell it
leaves at `(r, c)`. -/
theorem handleRightClick_counters (s : State) (r c : Nat) (cell : Cell)
    (hcell : getCell s.board r c = some cell) :
    ∃ s' cell', handleRightClick s r c = some s' ∧
      s'.board = modifyCell s.board r c (fun _ => cell') ∧
      s'.flagsPlaced + (if cell.flagged then 1 else 0) =
        s.flagsPlaced + (if cell'.flagged then 1 else 0) ∧
      s'.tagsPlaced + (if cell.tagged then 1 else 0) =
        s.tagsPlaced + (if cell'.tagged then 1 else 0) := by
  have hsame : ∃ s' cell', some s = some s' ∧
      s'.board = modifyCell s.board r c (fun _ => cell') ∧
      s'.flagsPlaced + (if cell.flagged then 1 else 0) =
        s.flagsPlaced + (if cell'.flagged then 1 else 0) ∧
      s'.tagsPlaced + (if cell.tagged then 1 else 0) =
        s.tagsPlaced + (if cell'.tagged then 1 else 0) :=
    ⟨s, cell, rfl, (modifyCell_id _ hcell rfl).symm, rfl, rfl⟩
  by_cases ht : (s.gameOver || s.gameWon) = true
  · simpa [handleRightClick, ht] using hsame
  by_cases ho : cell.opened = true
  · simpa [handleRightClick, ht, hcell, ho] using hsame
  cases hmode : s.tagMode with
  | false =>
    cases hfl : cell.flagged with
    | true =>
      refine ⟨{ s with board := modifyCell s.board r c (fun x => { x with flagged := false }),
                        flagsPlaced := s.flagsPlaced - 1 },
        { cell with flagged := false }, by
        simp [handleRightClick, ht, hcell, ho, hmode, hfl],
        modifyCell_congr _ _ hcell rfl, by simp [*], by simp [*]⟩
    | false =>
      cases htg : cell.tagged with
      | true =>
        simpa [handleRightClick, ht, hcell, ho, hmode, hfl, htg] using hsame
      | false =>
        refine ⟨{ s with board := modifyCell s.board r c (fun x => { x with flagged := true }),
                          flagsPlaced := s.flagsPlaced + 1 },
          { cell with flagged := true }, by
            simp [handleRightClick, ht, hcell, ho, hmode, hfl, htg],
          modifyCell_congr _ _ hcell rfl, by simp [*], by simp [*]⟩
  | true =>
    cases htg : cell.tagged with
    | true =>
      refine ⟨{ s with board := modifyCell s.board r c (fun x => { x with tagged := false }),
                        tagsPlaced := s.tagsPlaced - 1 },
        { cell with tagged := false }, by
        simp [handleRightClick, ht, hcell, ho, hmode, htg],
        modifyCell_congr _ _ hcell rfl, by simp [*], by simp [*]⟩
    | false =>
      cases hfl : cell.flagged with
      | true =>
        simpa [handleRightClick, ht, hcell, ho, hmode, hfl, htg] using hsame
      | false =>
        refine ⟨{ s with board := modifyCell s.board r c (fun x => { x with tagged := true }),
                          tagsPlaced := s.tagsPlaced + 1 },
          { cell with tagged := true }, by
            simp [handleRightClick, ht, hcell, ho, hmode, hfl, htg],
          modifyCell_congr _ _ hcell rfl, by simp [*], by simp [*]⟩

theorem countCells_of_OpenedMore (p : Cell → Bool)
    (hp : ∀ x : Cell, p { x with opened := true } = p x) {rows cols : Nat} {b b' : Board}
    (hb : WF rows cols b) (hb' : WF rows cols b') (h : OpenedMore b b') :
    countCells p b' = countCells p b := by
  refine countCells_congr p hb hb' (fun r c => ?_)
  rcases h r c with h | ⟨y, hy, _, hget⟩
  · rw [h]
  · rw [hget, hy]
    simp [hp]

theorem Reachable_counters {s : State} (h : Reachable s) :
    s.flagsPlaced = countCells (fun x => x.flagged) s.board ∧
    s.tagsPlaced = countCells (fun x => x.tagged) s.board := by
  induction h with
  | generate s0 samples s hgen =>
    obtain ⟨_, _, _, _, _, _, _, h1, h2, hfresh⟩ := generateBoard_fresh s0 samples s hgen
    rw [h1, h2, countCells_eq_zero _ _ (fun r c x hx => (hfresh r c x hx).2.1),
      countCells_eq_zero _ _ (fun r c x hx => (hfresh r c x hx).2.2)]
    exact ⟨rfl, rfl⟩
  | click s r c s' hreach hr hc hclick ih =>
    have hwf := (Reachable_wf_noFlagTag hreach).1
    obtain ⟨s'', h1, _, _, _, h2, h3, _, h4, h5⟩ := handleClick_total s r c hwf hr hc
    rw [hclick] at h1
    cases h1
    rw [h2, h3, countCells_of_OpenedMore (fun x => x.flagged) (fun _ => rfl) hwf h4 h5,
      countCells_of_OpenedMore (fun x => x.tagged) (fun _ => rfl) hwf h4 h5]
    exact ih
  | rightClick s r c s' hreach hr hc hclick ih =>
    obtain ⟨cell, hcell⟩ := getCell_isSome (Reachable_wf_noFlagTag hreach).1 hr hc
    obtain ⟨s'', cell', h1, h2, h3, h4⟩ := handleRightClick_counters s r c cell hcell
    rw [hclick] at h1
    cases h1
    have e1 := countCells_modifyCell (fun x => x.flagged) (fun _ => cell') hcell
    have e2 := countCells_modifyCell (fun x => x.tagged) (fun _ => cell') hcell
    rw [h2]
    obtain ⟨i1, i2⟩ := ih
    constructor
    · cases hf : cell.flagged <;> cases hf' : cell'.flagged <;>
        simp only [hf, hf', if_true, if_false, Bool.false_eq_true] at h3 e1 <;> omega
    · cases ht : cell.tagged <;> cases ht' : cell'.tagged <;>
        simp only [ht, ht', if_true, if_false, Bool.false_eq_true] at h4 e2 <;> omega
  | toggle s _ ih => exact ih

/-- C19: in every state reachable from `generateBoard` by `handleClick`, `handleRightClick`
and `toggleTagMode` calls at in-range coordinates, `flagsPlaced` is the number of cells with
`flagged == true` and `tagsPlaced` is the number of cells with `tagged == true`; both
counters therefore lie between `0` and `rows * cols`. -/
theorem reachable_counters (s : State) (h : Reachable s) :
    s.flagsPlaced = countCells (fun x => x.flagged) s.board ∧
    s.tagsPlaced = countCells (fun x => x.tagged) s.board ∧
    0 ≤ s.flagsPlaced ∧ s.flagsPlaced ≤ s.rows * s.cols ∧
    0 ≤ s.tagsPlaced ∧ s.tagsPlaced ≤ s.rows * s.cols := by
  obtain ⟨h1, h2⟩ := Reachable_counters h
  have hwf := (Reachable_wf_noFlagTag h).1
  have l1 := countCells_le (fun x => x.flagged) hwf
  have l2 := countCells_le (fun x => x.tagged) hwf
  refine ⟨h1, h2, ?_, ?_, ?_, ?_⟩
  · rw [h1]; exact Int.natCast_nonneg _
  · rw [h1]; exact_mod_cast l1
  · rw [h2]; exact Int.natCast_nonneg _
  · rw [h2]; exact_mod_cast l2

theorem generatedSession_reachable : Reachable generatedSession :=
  Reachable.generate freshSession [(0, 0)] generatedSession (by decide)

theorem flaggedCornerSession_reachable : Reachable flaggedCornerSession :=
  Reachable.rightClick generatedSession 1 1 flaggedCornerSession generatedSession_reachable
    (by decide) (by decide) (by decide)

theorem generatedLostSession_reachable : Reachable generatedLostSession :=
  Reachable.click generatedSession 0 0 generatedLostSession generatedSession_reachable
    (by decide) (by decide) (by decide)

/-- Witness for C20: the session lost by clicking the mine of a generated 2 × 2 board. -/
theorem reachable_status_exclusive_witness :
    Reachable generatedLostSession ∧
    ¬ (generatedLostSession.gameOver = true ∧ generatedLostSession.gameWon = true) :=
  ⟨generatedLostSession_reachable,
    reachable_status_exclusive generatedLostSession generatedLostSession_reachable⟩

/-- Witness for C19: the generated 2 × 2 board with one corner flagged. -/
theorem reachable_counters_witness :
    Reachable flaggedCornerSession ∧
    flaggedCornerSession.flagsPlaced = countCells (fun x => x.flagged) flaggedCornerSession.board ∧
    flaggedCornerSession.tagsPlaced = countCells (fun x => x.tagged) flaggedCornerSession.board ∧
    0 ≤ flaggedCornerSession.flagsPlaced ∧
    flaggedCornerSession.flagsPlaced ≤ flaggedCornerSession.rows * flaggedCornerSession.cols ∧
    0 ≤ flaggedCornerSession.tagsPlaced ∧
    flaggedCornerSession.tagsPlaced ≤ flaggedCornerSession.rows * flaggedCornerSession.cols :=
  ⟨flaggedCornerSession_reachable,
    reachable_counters flaggedCornerSession flaggedCornerSession_reachable⟩

/-! ## Claims about invalid configurations -/

theorem placeMines_mineCount (s0 : State) (samples : List (Nat × Nat)) (b1 : Board)
    (h0 : 0 ≤ s0.totalMines)
    (hfin : placeMines s0.totalMines (List.replicate s0.rows (List.replicate s0.cols blankCell))
      samples = some b1) :
    WF s0.rows s0.cols b1 ∧ (mineCount b1 : Int) = s0.totalMines :=
  placeMinesLoop_spec s0.rows s0.cols s0.totalMines samples 0 _ b1
    (WF_replicate _ _ _) (by simp [mineCount, countCells_replicate, blankCell]) h0 hfin

theorem mineCount_calculateAdjacentMines {rows cols : Nat} {b1 b2 : Board}
    (hb1 : WF rows cols b1) (hb2 : WF rows cols b2)
    (hcells : ∀ r c, getCell b2 r c = (getCell b1 r c).map (withAdjacency rows cols b1 r c)) :
    mineCount b2 = mineCount b1 := by
  refine countCells_congr _ hb1 hb2 (fun r c => ?_)
  rw [hcells]
  cases getCell b1 r c with
  | none => rfl
  | some cell => simp [withAdjacency_mine]

/-- Counterexample to C15: with `totalMines = 0` on a 2 × 2 grid, `generateBoard` raises
nothing: it returns a board without mines and resets `gameOver` and the counters of the
session it was given; with `totalMines = rows * cols = 4` it returns the board whose cells
are all mined. -/
theorem generateBoard_invalid_counterexample :
    generateBoard zeroMinesSession [] =
      some { zeroMinesSession with
        board := [[blankCell, blankCell], [blankCell, blankCell]],
        gameOver := false, flagsPlaced := 0, tagsPlaced := 0 } ∧
    generateBoard zeroMinesSession [] ≠ none ∧
    generateBoard zeroMinesSession [] ≠ some zeroMinesSession ∧
    generateBoard allMinesSession [(0, 0), (0, 1), (1, 0), (1, 1)] =
      some { allMinesSession with
        board := [[mineCell, mineCell], [mineCell, mineCell]],
        gameOver := false, flagsPlaced := 0, tagsPlaced := 0 } := by
  decide

/-- C15, amended: `generateBoard` has no check of `totalMines`. With `totalMines ≤ 0` it
returns a `rows × cols` board without mines and resets `gameOver`, `gameWon`, `flagsPlaced`
and `tagsPlaced`; with `totalMines = rows * cols` it returns, whenever the loop of
`placeMines` finishes, a board whose `rows * cols` cells are all mined; with
`totalMines > rows * cols` the loop of `placeMines` finishes on no sample sequence, so
`generateBoard` returns no board. -/
theorem generateBoard_invalid_totalMines (s0 : State) (samples : List (Nat × Nat)) :
    (s0.totalMines ≤ 0 →
      ∃ s, generateBoard s0 samples = some s ∧ WF s0.rows s0.cols s.board ∧
        mineCount s.board = 0 ∧ s.gameOver = false ∧ s.gameWon = false ∧
        s.flagsPlaced = 0 ∧ s.tagsPlaced = 0) ∧
    (s0.totalMines = s0.rows * s0.cols →
      ∀ b1, placeMines s0.totalMines
          (List.replicate s0.rows (List.replicate s0.cols blankCell)) samples = some b1 →
        ∃ s, generateBoard s0 samples = some s ∧ WF s0.rows s0.cols s.board ∧
          mineCount s.board = s0.rows * s0.cols) ∧
    ((s0.rows * s0.cols : Int) < s0.totalMines → generateBoard s0 samples = none) := by
  refine ⟨fun hle => ?_, fun heq b1 hfin => ?_, fun hgt => ?_⟩
  · have hfin : placeMines s0.totalMines
        (List.replicate s0.rows (List.replicate s0.cols blankCell)) samples =
        some (List.replicate s0.rows (List.replicate s0.cols blankCell)) := by
      unfold placeMines
      exact placeMinesLoop_done _ _ _ _ (by omega)
    obtain ⟨b2, _, hb1, hb2, hcells, hgen⟩ := generateBoard_eq s0 samples _ hfin
    refine ⟨_, hgen, hb2, ?_, rfl, rfl, rfl, rfl⟩
    show mineCount b2 = 0
    rw [mineCount_calculateAdjacentMines hb1 hb2 hcells]
    exact countCells_replicate _ _ _ _ rfl
  · obtain ⟨b2, _, hb1, hb2, hcells, hgen⟩ := generateBoard_eq s0 samples b1 hfin
    have hcount := (placeMines_mineCount s0 samples b1 (by rw [heq]; positivity) hfin).2
    refine ⟨_, hgen, hb2, ?_⟩
    show mineCount b2 = s0.rows * s0.cols
    rw [mineCount_calculateAdjacentMines hb1 hb2 hcells]
    rw [heq] at hcount
    exact_mod_cast hcount
  · cases hfin : placeMines s0.totalMines
        (List.replicate s0.rows (List.replicate s0.cols blankCell)) samples with
    | none => simp [generateBoard, hfin]
    | some b1 =>
      have h0 : 0 ≤ s0.totalMines := le_trans (by positivity) (le_of_lt hgt)
      obtain ⟨hwf, hcount⟩ := placeMines_mineCount s0 samples b1 h0 hfin
      have hle := countCells_le (fun x => x.mine) hwf
      have hle' : (mineCount b1 : Int) ≤ (s0.rows * s0.cols : Nat) := by
        exact_mod_cast hle
      rw [hcount] at hle'
      push_cast at hle'
      omega

/-- Witness for C15, amended: the three configurations on a 2 × 2 grid. -/
theorem generateBoard_invalid_totalMines_witness :
    (∃ s, generateBoard zeroMinesSession [(1, 1)] = some s ∧
      WF zeroMinesSession.rows zeroMinesSession.cols s.board ∧
      mineCount s.board = 0 ∧ s.gameOver = false ∧ s.gameWon = false ∧
      s.flagsPlaced = 0 ∧ s.tagsPlaced = 0) ∧
    (∃ s, generateBoard allMinesSession [(0, 0), (0, 1), (0, 0), (1, 0), (1, 1)] = some s ∧
      WF allMinesSession.rows allMinesSession.cols s.board ∧
      mineCount s.board = allMinesSession.rows * allMinesSession.cols) ∧
    generateBoard tooManyMinesSession [(0, 0), (0, 1), (1, 0), (1, 1), (0, 0)] = none :=
  ⟨(generateBoard_invalid_totalMines zeroMinesSession [(1, 1)]).1 (by decide),
   (generateBoard_invalid_totalMines allMinesSession
      [(0, 0), (0, 1), (0, 0), (1, 0), (1, 1)]).2.1 (by decide)
      [[mineCell, mineCell], [mineCell, mineCell]] (by decide),
   (generateBoard_invalid_totalMines tooManyMinesSession
      [(0, 0), (0, 1), (1, 0), (1, 1), (0, 0)]).2.2 (by decide)⟩

/-! ## Neighbours and fill paths -/

theorem adjacent_of_direction {rows cols r c : Nat} {d : Int × Int} (hd : d ∈ directions)
    (hg : inGrid rows cols (r + d.1) (c + d.2) = true) :
    Adjacent rows cols (r, c) (neighbour r c d) := by
  obtain ⟨h1, h2, h3, h4⟩ := inGrid_iff.1 hg
  simp only [directions, List.mem_cons, List.mem_singleton, List.not_mem_nil, or_false] at hd
  unfold Adjacent neighbour
  rcases hd with rfl | rfl | rfl | rfl | rfl | rfl | rfl | rfl <;>
    simp only [ne_eq, Prod.mk.injEq] at * <;>
    refine ⟨by omega, by omega, by omega, by omega, by omega, by omega, by omega⟩

theorem direction_of_adjacent {rows cols r c : Nat} {v : Nat × Nat}
    (h : Adjacent rows cols (r, c) v) :
    ∃ d ∈ directions, inGrid rows cols (r + d.1) (c + d.2) = true ∧ neighbour r c d = v := by
  obtain ⟨vr, vc⟩ := v
  obtain ⟨h1, h2, h3, h4, h5, h6, h7⟩ := h
  simp only [ne_eq, Prod.mk.injEq] at h1 h2 h3 h4 h5 h6 h7
  refine ⟨((vr : Int) - r, (vc : Int) - c), ?_, ?_, ?_⟩
  · have e1 : (vr : Int) - r = -1 ∨ (vr : Int) - r = 0 ∨ (vr : Int) - r = 1 := by omega
    have e2 : (vc : Int) - c = -1 ∨ (vc : Int) - c = 0 ∨ (vc : Int) - c = 1 := by omega
    have e3 : ¬ ((vr : Int) - r = 0 ∧ (vc : Int) - c = 0) := by omega
    rcases e1 with e1 | e1 | e1 <;> rcases e2 with e2 | e2 | e2 <;>
      simp [e1, e2, directions] at e3 ⊢
  · rw [inGrid_iff]
    simp only
    omega
  · simp only [neighbour, Prod.mk.injEq]
    omega

theorem FillPath_prepend {rows cols : Nat} {b : Board} {start n v : Nat × Nat}
    (hadj : Adjacent rows cols start n) (hfill : Fillable b n) (hzero : ZeroAt b n)
    (h : FillPath rows cols b n v) : FillPath rows cols b start v := by
  induction h with
  | first v hv hfv => exact FillPath.next n v (FillPath.first n hadj hfill) hzero hv hfv
  | next u v _ hz hv hfv ih => exact FillPath.next u v ih hz hv hfv

theorem Fillable_of_OpensOnly {b x : Board} (h : OpensOnly b x) {v : Nat × Nat}
    (hv : Fillable x v) : Fillable b v := by
  obtain ⟨cell, hcell, ho, hf⟩ := hv
  rcases h v.1 v.2 with h | ⟨y, _, _, _, hget⟩
  · exact ⟨cell, by rw [← h, hcell], ho, hf⟩
  · rw [hget] at hcell
    cases hcell
    cases ho

theorem ZeroAt_of_OpensOnly {b x : Board} (h : OpensOnly b x) {v : Nat × Nat} :
    ZeroAt x v ↔ ZeroAt b v := by
  constructor
  · rintro ⟨cell, hcell, hz⟩
    rcases h v.1 v.2 with h | ⟨y, hy, _, _, hget⟩
    · exact ⟨cell, by rw [← h, hcell], hz⟩
    · rw [hget] at hcell
      cases hcell
      exact ⟨y, hy, hz⟩
  · rintro ⟨cell, hcell, hz⟩
    rcases h v.1 v.2 with h | ⟨y, hy, _, _, hget⟩
    · exact ⟨cell, by rw [h, hcell], hz⟩
    · rw [hy] at hcell
      cases hcell
      exact ⟨_, hget, hz⟩

theorem FillPath_of_OpensOnly {rows cols : Nat} {b x : Board} (h : OpensOnly b x)
    {start v : Nat × Nat} (hp : FillPath rows cols x start v) :
    FillPath rows cols b start v := by
  induction hp with
  | first v hv hfv => exact FillPath.first v hv (Fillable_of_OpensOnly h hfv)
  | next u v _ hz hv hfv ih =>
    exact FillPath.next u v ih ((ZeroAt_of_OpensOnly h).1 hz) hv (Fillable_of_OpensOnly h hfv)

theorem Done_of_OpensOnly {x x' : Board} (h : OpensOnly x x') {v : Nat × Nat}
    (hv : Done x v) : Done x' v := by
  intro cell hcell hf
  rcases h v.1 v.2 with h | ⟨y, _, _, _, hget⟩
  · exact hv cell (h ▸ hcell) hf
  · rw [hget] at hcell
    cases hcell
    rfl

theorem NbrsDone_of_OpensOnly {rows cols : Nat} {x x' : Board} (h : OpensOnly x x')
    {u : Nat × Nat} (hu : NbrsDone rows cols x u) : NbrsDone rows cols x' u :=
  fun v hv => Done_of_OpensOnly h (hu v hv)

theorem NewlyOpened_split {b x x' : Board} (h1 : OpensOnly b x) {u : Nat × Nat}
    (hu : NewlyOpened b x' u) : NewlyOpened b x u ∨ NewlyOpened x x' u := by
  obtain ⟨cell, hcell, ho, hget⟩ := hu
  rcases h1 u.1 u.2 with h | ⟨y, hy, _, _, hgetx⟩
  · exact Or.inr ⟨cell, by rw [h, hcell], ho, hget⟩
  · rw [hcell] at hy
    cases hy
    exact Or.inl ⟨cell, hcell, ho, hgetx⟩

theorem NewlyOpened_modifyCell {x : Board} {n u : Nat × Nat}
    (hu : NewlyOpened x (modifyCell x n.1 n.2 (fun y => { y with opened := true })) u) :
    u = n := by
  obtain ⟨cell, hcell, ho, hget⟩ := hu
  rw [getCell_modifyCell] at hget
  split at hget
  · next h => exact Prod.ext h.1 h.2
  · rw [hcell] at hget
    have hopen := congrArg (fun o => o.map (fun y => y.opened)) hget
    simp [ho] at hopen

theorem NewlyOpened_of_Done {b b' : Board} (h : OpensOnly b b') {v : Nat × Nat}
    (hfill : Fillable b v) (hdone : Done b' v) : NewlyOpened b b' v := by
  obtain ⟨cell, hcell, ho, hf⟩ := hfill
  rcases h v.1 v.2 with h | ⟨y, hy, _, _, hget⟩
  · have := hdone cell (by rw [h, hcell]) hf
    rw [ho] at this
    cases this
  · rw [hcell] at hy
    cases hy
    exact ⟨cell, hcell, ho, hget⟩

/-! ## Flood fill with its log of recursive calls -/

theorem foldlM_map_comm {σ τ α : Type} (p : σ → τ) (f : σ → α → Option σ)
    (g : τ → α → Option τ) (l : List α)
    (h : ∀ s, ∀ x ∈ l, (f s x).map p = g (p s) x) (s : σ) :
    (l.foldlM f s).map p = l.foldlM g (p s) := by
  induction l generalizing s with
  | nil => rfl
  | cons x xs ih =>
    rw [List.foldlM_cons, List.foldlM_cons, ← h s x (List.mem_cons_self _ _)]
    cases hfx : f s x with
    | none => rfl
    | some s1 =>
      simp only [Option.map_some', Option.bind_eq_bind, Option.some_bind]
      exact ih (fun s y hy => h s y (List.mem_cons_of_mem _ hy)) s1

/-- Dropping the log from `openAdjacentCellsLog` gives `openAdjacentCells`. -/
theorem openAdjacentCellsLog_fst (rows cols : Nat) (fuel : Nat) :
    ∀ (st : Board × List (Nat × Nat)) (r c : Nat),
      (openAdjacentCellsLog rows cols fuel st r c).map Prod.fst =
        openAdjacentCells rows cols fuel st.1 r c := by
  induction fuel with
  | zero => intro st r c; rfl
  | succ fuel ih =>
    intro st r c
    unfold openAdjacentCellsLog openAdjacentCells
    apply foldlM_map_comm
    intro s d _
    by_cases hg : inGrid rows cols (r + d.1) (c + d.2) = true
    · simp only [hg, if_true]
      cases hcell : getCell s.1 ((r : Int) + d.1).toNat ((c : Int) + d.2).toNat with
      | none => rfl
      | some cell =>
        simp only
        by_cases hopen : (!cell.opened && !cell.flagged) = true
        · simp only [hopen, if_true]
          by_cases hz : cell.adjacentMines = 0
          · simp only [hz, if_true]
            exact ih _ _ _
          · simp only [hz, if_false]
            rfl
        · simp only [hopen, Bool.false_eq_true, if_false]
          rfl
    · simp only [hg, Bool.false_eq_true, if_false]
      rfl

theorem foldlM_inv_prefix {σ α : Type} (P : List α → σ → Prop) (f : σ → α → Option σ)
    (l : List α) (init : σ) (h0 : P [] init)
    (hstep : ∀ pre x s, x ∈ l → P pre s → ∃ s', f s x = some s' ∧ P (pre ++ [x]) s') :
    ∃ s', l.foldlM f init = some s' ∧ P l s' := by
  have key : ∀ (rest pre : List α) (s : σ), (∀ x ∈ rest, x ∈ l) → P pre s →
      ∃ s', rest.foldlM f s = some s' ∧ P (pre ++ rest) s' := by
    intro rest
    induction rest with
    | nil =>
      intro pre s _ hP
      exact ⟨s, rfl, by simpa using hP⟩
    | cons x xs ih =>
      intro pre s hmem hP
      obtain ⟨s1, h1, hP1⟩ := hstep pre x s (hmem x (List.mem_cons_self _ _)) hP
      obtain ⟨s', h2, hP'⟩ := ih (pre ++ [x]) s1
        (fun y hy => hmem y (List.mem_cons_of_mem _ hy)) hP1
      refine ⟨s', by simp [List.foldlM_cons, h1, h2], ?_⟩
      simpa using hP'
  simpa using key l [] init (fun _ h => h) h0

theorem OpenAt_of_OpensOnly {x x' : Board} (h : OpensOnly x x') {v : Nat × Nat}
    (hv : OpenAt x v) : OpenAt x' v := by
  obtain ⟨cell, hcell, ho⟩ := hv
  rcases h v.1 v.2 with h | ⟨y, _, _, _, hget⟩
  · exact ⟨cell, by rw [h, hcell], ho⟩
  · exact ⟨_, hget, rfl⟩

theorem NewlyOpened_mono {b x x' : Board} (h : OpensOnly x x') {v : Nat × Nat}
    (hv : NewlyOpened b x v) : NewlyOpened b x' v := by
  obtain ⟨cell, hcell, ho, hget⟩ := hv
  rcases h v.1 v.2 with h | ⟨y, hy, hyo, _, _⟩
  · exact ⟨cell, hcell, ho, by rw [h, hget]⟩
  · rw [hget] at hy
    cases hy
    cases hyo

theorem NewlyOpened_of_later {b x x' : Board} (h : OpensOnly b x) {v : Nat × Nat}
    (hv : NewlyOpened x x' v) : NewlyOpened b x' v := by
  obtain ⟨cell, hcell, ho, hget⟩ := hv
  rcases h v.1 v.2 with h | ⟨y, _, _, _, hgetx⟩
  · exact ⟨cell, by rw [← h, hcell], ho, hget⟩
  · rw [hgetx] at hcell
    cases hcell
    cases ho

theorem not_NewlyOpened_self (b : Board) (v : Nat × Nat) : ¬ NewlyOpened b b v := by
  rintro ⟨cell, hcell, ho, hget⟩
  rw [hcell] at hget
  have hopen := congrArg (fun o => o.map (fun y => y.opened)) hget
  simp [ho] at hopen

theorem FillInv_start {rows cols : Nat} {b : Board} {log : List (Nat × Nat)}
    (start : Nat × Nat) (hb : WF rows cols b) (hnd : log.Nodup)
    (hopen : ∀ v ∈ log, OpenAt b v) : FillInv rows cols b log start b log :=
  ⟨hb, OpensOnly_refl b, Nat.le_refl _, hnd, hopen, ⟨[], by simp, by simp⟩,
    fun u hu => absurd hu (not_NewlyOpened_self b u),
    fun v hv => absurd hv (not_NewlyOpened_self b v)⟩

/-- One iteration of the loop of `openAdjacentCells(start)` that opens the neighbour `n`:
what holds right after the write, how the invariant is restored when `n` is not expanded,
and how it is restored from the result of the recursive call when it is. -/
theorem FillInv_open {rows cols : Nat} {b x : Board} {log lg : List (Nat × Nat)}
    {start n : Nat × Nat} {cell : Cell} (hinv : FillInv rows cols b log start x lg)
    (hcell : getCell x n.1 n.2 = some cell) (ho : cell.opened = false)
    (hf : cell.flagged = false) (hadj : Adjacent rows cols start n) :
    WF rows cols (modifyCell x n.1 n.2 (fun y => { y with opened := true })) ∧
    (lg ++ [n]).Nodup ∧
    (∀ v ∈ lg ++ [n], OpenAt (modifyCell x n.1 n.2 (fun y => { y with opened := true })) v) ∧
    unopenedCount (modifyCell x n.1 n.2 (fun y => { y with opened := true })) + 1 =
      unopenedCount x ∧
    unopenedCount x ≤ unopenedCount b ∧
    OpensOnly x (modifyCell x n.1 n.2 (fun y => { y with opened := true })) ∧
    (cell.adjacentMines ≠ 0 →
      FillInv rows cols b log start (modifyCell x n.1 n.2 (fun y => { y with opened := true }))
        lg) ∧
    (cell.adjacentMines = 0 → ∀ x' lg',
      FillInv rows cols (modifyCell x n.1 n.2 (fun y => { y with opened := true }))
        (lg ++ [n]) n x' lg' →
      NbrsDone rows cols x' n → FillInv rows cols b log start x' lg') := by
  obtain ⟨hwf, hbx, hlen, hnd, hopen, ⟨new, hnew, hnewP⟩, hclosed, hsound⟩ := hinv
  have hstep := OpensOnly_modifyCell hcell ho hf
  have hbx1 := OpensOnly_trans hbx hstep
  have hcnt := unopenedCount_modifyCell hcell ho
  have hwf1 : WF rows cols (modifyCell x n.1 n.2 (fun y => { y with opened := true })) :=
    WF_modifyCell hwf _ _ _
  have hbn : getCell b n.1 n.2 = some cell := by
    rcases hbx n.1 n.2 with h | ⟨y, _, _, _, hget⟩
    · rw [← h, hcell]
    · rw [hget] at hcell
      cases hcell
      cases ho
  have hfillb : Fillable b n := ⟨cell, hbn, ho, hf⟩
  have hnew_n : NewlyOpened b (modifyCell x n.1 n.2 (fun y => { y with opened := true })) n :=
    ⟨cell, hbn, ho, getCell_modifyCell_self _ hcell⟩
  have hopen_n : OpenAt (modifyCell x n.1 n.2 (fun y => { y with opened := true })) n :=
    ⟨_, getCell_modifyCell_self _ hcell, rfl⟩
  have hnotin : n ∉ lg := by
    intro hmem
    obtain ⟨y, hy, hyo⟩ := hopen n hmem
    rw [hcell] at hy
    cases hy
    rw [ho] at hyo
    cases hyo
  have hzero : ZeroAt b n ↔ cell.adjacentMines = 0 := by
    constructor
    · rintro ⟨y, hy, hz⟩
      rw [hbn] at hy
      cases hy
      exact hz
    · exact fun hz => ⟨cell, hbn, hz⟩
  have hsound1 : ∀ v,
      NewlyOpened b (modifyCell x n.1 n.2 (fun y => { y with opened := true })) v →
      FillPath rows cols b start v := by
    intro v hv
    rcases NewlyOpened_split hbx hv with h | h
    · exact hsound v h
    · rw [NewlyOpened_modifyCell h]
      exact FillPath.first n hadj hfillb
  have hlenle : unopenedCount x ≤ unopenedCount b := by
    have : lg.length = log.length + new.length := by rw [hnew, List.length_append]
    omega
  refine ⟨hwf1, ?_, ?_, hcnt, hlenle, hstep, ?_, ?_⟩
  · exact List.nodup_append.2 ⟨hnd, List.nodup_singleton n, by
      intro a ha hb'
      rw [List.mem_singleton] at hb'
      subst hb'
      exact hnotin ha⟩
  · intro v hv
    rcases List.mem_append.1 hv with h | h
    · exact OpenAt_of_OpensOnly hstep (hopen v h)
    · rw [List.mem_singleton] at h
      subst h
      exact hopen_n
  · intro hnz
    refine ⟨hwf1, hbx1, by omega, hnd, fun v hv => OpenAt_of_OpensOnly hstep (hopen v hv),
      ⟨new, hnew, fun v hv => ⟨NewlyOpened_mono hstep (hnewP v hv).1, (hnewP v hv).2⟩⟩, ?_,
      hsound1⟩
    intro u hu hz
    rcases NewlyOpened_split hbx hu with h | h
    · exact NbrsDone_of_OpensOnly hstep (hclosed u h hz)
    · rw [NewlyOpened_modifyCell h] at hz
      exact absurd (hzero.1 hz) hnz
  · intro hz x' lg' hinner hnbrs
    obtain ⟨hwf', hx1x', hlen', hnd', hopen', ⟨new', hnew', hnewP'⟩, hclosed', hsound'⟩ := hinner
    have hxx' := OpensOnly_trans hstep hx1x'
    refine ⟨hwf', OpensOnly_trans hbx1 hx1x', ?_, hnd', hopen', ⟨new ++ [n] ++ new', ?_, ?_⟩,
      ?_, ?_⟩
    · rw [List.length_append, List.length_singleton] at hlen'
      omega
    · rw [hnew', hnew]
      simp [List.append_assoc]
    · intro v hv
      rcases List.mem_append.1 hv with h | h
      · rcases List.mem_append.1 h with h | h
        · exact ⟨NewlyOpened_mono hxx' (hnewP v h).1, (hnewP v h).2⟩
        · rw [List.mem_singleton] at h
          subst h
          exact ⟨NewlyOpened_mono hx1x' hnew_n, hzero.2 hz⟩
      · exact ⟨NewlyOpened_of_later hbx1 (hnewP' v h).1,
          (ZeroAt_of_OpensOnly hbx1).1 (hnewP' v h).2⟩
    · intro u hu hzu
      rcases NewlyOpened_split hbx1 hu with h | h
      · rcases NewlyOpened_split hbx h with h' | h'
        · exact NbrsDone_of_OpensOnly hxx' (hclosed u h' hzu)
        · rw [NewlyOpened_modifyCell h']
          exact hnbrs
      · exact hclosed' u h ((ZeroAt_of_OpensOnly hbx1).2 hzu)
    · intro v hv
      rcases NewlyOpened_split hbx1 hv with h | h
      · exact hsound1 v h
      · exact FillPath_prepend hadj hfillb (hzero.2 hz)
          (FillPath_of_OpensOnly hbx1 (hsound' v h))

theorem Done_modifyCell_self {x : Board} {n : Nat × Nat} {cell : Cell}
    (hcell : getCell x n.1 n.2 = some cell) :
    Done (modifyCell x n.1 n.2 (fun y => { y with opened := true })) n := by
  intro y hy _
  rw [getCell_modifyCell_self _ hcell] at hy
  cases hy
  rfl

/-- With a budget above the number of unopened cells, the logged flood fill returns, and its
result satisfies the invariant of the fill started at `(r, c)`, with every in-grid neighbour
of `(r, c)` opened or flagged. -/
theorem openAdjacentCellsLog_spec (rows cols : Nat) (fuel : Nat) :
    ∀ (b : Board) (log : List (Nat × Nat)) (r c : Nat), WF rows cols b →
      unopenedCount b < fuel → log.Nodup → (∀ v ∈ log, OpenAt b v) →
      ∃ b' log', openAdjacentCellsLog rows cols fuel (b, log) r c = some (b', log') ∧
        FillInv rows cols b log (r, c) b' log' ∧ NbrsDone rows cols b' (r, c) := by
  induction fuel with
  | zero => intro b log r c _ h; exact absurd h (Nat.not_lt_zero _)
  | succ fuel ih =>
    intro b log r c hb hfuel hnd hopen
    unfold openAdjacentCellsLog
    have hfold := foldlM_inv_prefix
      (fun pre (st : Board × List (Nat × Nat)) =>
        FillInv rows cols b log (r, c) st.1 st.2 ∧
        ∀ d ∈ pre, inGrid rows cols (r + d.1) (c + d.2) = true → Done st.1 (neighbour r c d))
      (fun st d =>
        if inGrid rows cols (r + d.1) (c + d.2) then
          match getCell st.1 ((r : Int) + d.1).toNat ((c : Int) + d.2).toNat with
          | none => none
          | some cell =>
            if !cell.opened && !cell.flagged then
              if cell.adjacentMines = 0 then
                openAdjacentCellsLog rows cols fuel
                  (modifyCell st.1 ((r : Int) + d.1).toNat ((c : Int) + d.2).toNat
                    (fun x => { x with opened := true }),
                   st.2 ++ [(((r : Int) + d.1).toNat, ((c : Int) + d.2).toNat)])
                  ((r : Int) + d.1).toNat ((c : Int) + d.2).toNat
              else
                some (modifyCell st.1 ((r : Int) + d.1).toNat ((c : Int) + d.2).toNat
                  (fun x => { x with opened := true }), st.2)
            else some st
        else some st)
      directions (b, log) ⟨FillInv_start (r, c) hb hnd hopen, by simp⟩ ?_
    · obtain ⟨⟨b', log'⟩, h1, hinv, hdirs⟩ := hfold
      refine ⟨b', log', h1, hinv, fun v hv => ?_⟩
      obtain ⟨d, hd, hg, hn⟩ := direction_of_adjacent hv
      rw [← hn]
      exact hdirs d hd hg
    · intro pre d st hd ⟨hinv, hdirs⟩
      by_cases hg : inGrid rows cols (r + d.1) (c + d.2) = true
      · obtain ⟨cell, hcell⟩ := getCell_isSome hinv.1 (inGrid_toNat hg).1 (inGrid_toNat hg).2
        simp only [hg, if_true, hcell]
        by_cases hop : (!cell.opened && !cell.flagged) = true
        · have ho : cell.opened = false := by
            cases h : cell.opened <;> simp_all
          have hf : cell.flagged = false := by
            cases h : cell.flagged <;> simp_all
          have hcell' : getCell st.1 (neighbour r c d).1 (neighbour r c d).2 = some cell := hcell
          obtain ⟨hwf1, hnd1, hopen1, hcnt, hle, hstep, hnz, hzero⟩ :=
            FillInv_open hinv hcell' ho hf (adjacent_of_direction hd hg)
          have hdone := Done_modifyCell_self hcell'
          simp only [hop, if_true]
          by_cases hz : cell.adjacentMines = 0
          · simp only [hz, if_true]
            obtain ⟨b'', lg'', h1, hinner, hnbrs⟩ := ih
              (modifyCell st.1 (neighbour r c d).1 (neighbour r c d).2
                (fun x => { x with opened := true }))
              (st.2 ++ [neighbour r c d]) (neighbour r c d).1 (neighbour r c d).2
              hwf1 (by omega) hnd1 hopen1
            refine ⟨(b'', lg''), h1, hzero hz b'' lg'' hinner hnbrs, fun d' hd' hg' => ?_⟩
            rcases List.mem_append.1 hd' with h | h
            · exact Done_of_OpensOnly (OpensOnly_trans hstep hinner.2.1) (hdirs d' h hg')
            · rw [List.mem_singleton] at h
              subst h
              exact Done_of_OpensOnly hinner.2.1 hdone
          · simp only [hz, if_false]
            refine ⟨_, rfl, hnz hz, fun d' hd' hg' => ?_⟩
            rcases List.mem_append.1 hd' with h | h
            · exact Done_of_OpensOnly hstep (hdirs d' h hg')
            · rw [List.mem_singleton] at h
              subst h
              exact hdone
        · simp only [hop, Bool.false_eq_true, if_false]
          refine ⟨st, rfl, hinv, fun d' hd' hg' => ?_⟩
          rcases List.mem_append.1 hd' with h | h
          · exact hdirs d' h hg'
          · rw [List.mem_singleton] at h
            subst h
            intro y hy hyf
            have hy' : getCell st.1 ((r : Int) + d'.1).toNat ((c : Int) + d'.2).toNat =
                some y := hy
            rw [hcell] at hy'
            cases hy'
            cases hyo : cell.opened with
            | true => rfl
            | false => simp [hyo, hyf] at hop
      · simp only [hg, Bool.false_eq_true, if_false]
        refine ⟨st, rfl, hinv, fun d' hd' hg' => ?_⟩
        rcases List.mem_append.1 hd' with h | h
        · exact hdirs d' h hg'
        · rw [List.mem_singleton] at h
          subst h
          exact absurd hg' hg

/-- With a budget above the number of unopened cells, `openAdjacentCells` returns the board
of the logged fill started from an empty log. -/
theorem openAdjacentCells_fill (rows cols fuel : Nat) (b : Board) (r c : Nat)
    (hb : WF rows cols b) (hfuel : unopenedCount b < fuel) :
    ∃ b' calls, openAdjacentCells rows cols fuel b r c = some b' ∧
      openAdjacentCellsLog rows cols fuel (b, []) r c = some (b', calls) ∧
      FillInv rows cols b [] (r, c) b' calls ∧ NbrsDone rows cols b' (r, c) := by
  obtain ⟨b', calls, h1, h2, h3⟩ := openAdjacentCellsLog_spec rows cols fuel b [] r c hb hfuel
    List.nodup_nil (by simp)
  refine ⟨b', calls, ?_, h1, h2, h3⟩
  have := openAdjacentCellsLog_fst rows cols fuel (b, []) r c
  rw [h1] at this
  exact this.symm

theorem FillPath_opened {rows cols : Nat} {b b' : Board} {start : Nat × Nat}
    (hbb' : OpensOnly b b') (hnbrs : NbrsDone rows cols b' start)
    (hclosed : Closed rows cols b b') {v : Nat × Nat} (hp : FillPath rows cols b start v) :
    NewlyOpened b b' v := by
  induction hp with
  | first v hv hfv => exact NewlyOpened_of_Done hbb' hfv (hnbrs v hv)
  | next u v _ hz hv hfv ih => exact NewlyOpened_of_Done hbb' hfv (hclosed u ih hz v hv)

theorem foldlM_some_mono {σ α : Type} (f g : σ → α → Option σ) (l : List α)
    (h : ∀ s x s', f s x = some s' → g s x = some s') :
    ∀ s s', l.foldlM f s = some s' → l.foldlM g s = some s' := by
  induction l with
  | nil => intro s s' hs; exact hs
  | cons x xs ih =>
    intro s s' hs
    rw [List.foldlM_cons] at hs ⊢
    cases hfx : f s x with
    | none => rw [hfx] at hs; cases hs
    | some s1 =>
      rw [hfx] at hs
      rw [h s x s1 hfx]
      exact ih s1 s' hs

theorem openAdjacentCells_fuel_succ (rows cols : Nat) (fuel : Nat) :
    ∀ (b : Board) (r c : Nat) (b' : Board), openAdjacentCells rows cols fuel b r c = some b' →
      openAdjacentCells rows cols (fuel + 1) b r c = some b' := by
  induction fuel with
  | zero => intro b r c b' h; cases h
  | succ fuel ih =>
    intro b r c b' h
    unfold openAdjacentCells at h ⊢
    refine foldlM_some_mono _ _ directions ?_ b b' h
    intro x d x' hx
    by_cases hg : inGrid rows cols (r + d.1) (c + d.2) = true
    · simp only [hg, if_true] at hx ⊢
      cases hcell : getCell x ((r : Int) + d.1).toNat ((c : Int) + d.2).toNat with
      | none => rw [hcell] at hx; cases hx
      | some cell =>
        rw [hcell] at hx
        simp only at hx ⊢
        by_cases hop : (!cell.opened && !cell.flagged) = true
        · simp only [hop, if_true] at hx ⊢
          by_cases hz : cell.adjacentMines = 0
          · simp only [hz, if_true] at hx ⊢
            exact ih _ _ _ _ hx
          · simp only [hz, if_false] at hx ⊢
            exact hx
        · simp only [hop, Bool.false_eq_true, if_false] at hx ⊢
          exact hx
    · simp only [hg, Bool.false_eq_true, if_false] at hx ⊢
      exact hx

theorem openAdjacentCells_fuel_le (rows cols : Nat) {fuel fuel' : Nat} (hle : fuel ≤ fuel')
    (b : Board) (r c : Nat) (b' : Board)
    (h : openAdjacentCells rows cols fuel b r c = some b') :
    openAdjacentCells rows cols fuel' b r c = some b' := by
  induction hle with
  | refl => exact h
  | step _ ih => exact openAdjacentCells_fuel_succ rows cols _ b r c b' ih

/-! ## Claims about the flood fill -/

/-- C16: on a `rows × cols` board, `openAdjacentCells(r, c)` returns (for every recursion
budget above the number of unopened cells) a board in which the cells changed from unopened
to opened are exactly the cells `v` reached from `(r, c)` by a path of consecutive distinct
in-grid 8-neighbours whose cells after `(r, c)` were all unopened and unflagged and, except
for `v`, all have `adjacentMines == 0`; every other cell, and every field other than
`opened`, is unchanged. -/
theorem openAdjacentCells_fill_set (rows cols fuel : Nat) (b : Board) (r c : Nat)
    (hb : WF rows cols b) (hfuel : unopenedCount b < fuel) :
    ∃ b', openAdjacentCells rows cols fuel b r c = some b' ∧
      (∀ v, NewlyOpened b b' v ↔ FillPath rows cols b (r, c) v) ∧
      (∀ r' c', getCell b' r' c' = getCell b r' c' ∨
        ∃ cell, getCell b r' c' = some cell ∧ cell.opened = false ∧
          getCell b' r' c' = some { cell with opened := true }) := by
  obtain ⟨b', calls, h1, _, hinv, hnbrs⟩ := openAdjacentCells_fill rows cols fuel b r c hb hfuel
  obtain ⟨_, hbb', _, _, _, _, hclosed, hsound⟩ := hinv
  refine ⟨b', h1, fun v => ⟨hsound v, FillPath_opened hbb' hnbrs hclosed⟩, fun r' c' => ?_⟩
  rcases hbb' r' c' with h | ⟨cell, hcell, ho, _, hget⟩
  · exact Or.inl h
  · exact Or.inr ⟨cell, hcell, ho, hget⟩

/-- Witness for C16: the fill from the last cell of the row `[mine, 1, 0, 0]`. -/
theorem openAdjacentCells_fill_set_witness :
    WF 1 4 rowBoard ∧ unopenedCount rowBoard < 5 ∧
    ∃ b', openAdjacentCells 1 4 5 rowBoard 0 3 = some b' ∧
      (∀ v, NewlyOpened rowBoard b' v ↔ FillPath 1 4 rowBoard (0, 3) v) ∧
      (∀ r' c', getCell b' r' c' = getCell rowBoard r' c' ∨
        ∃ cell, getCell rowBoard r' c' = some cell ∧ cell.opened = false ∧
          getCell b' r' c' = some { cell with opened := true }) :=
  ⟨by decide, by decide, openAdjacentCells_fill_set 1 4 5 rowBoard 0 3 (by decide) (by decide)⟩

/-- The fill of the witness of C16 evaluated: from `(0, 3)` it opens `(0, 2)`, from there
`(0, 1)` and `(0, 3)`, and it stops at `(0, 1)`, whose count is `1`. -/
theorem openAdjacentCells_rowBoard :
    openAdjacentCells 1 4 5 rowBoard 0 3 =
      some [[mineCell, { oneCell with opened := true }, { blankCell with opened := true },
             { blankCell with opened := true }]] := by
  decide

/-- C17, amended: on a `rows × cols` board in any state, `openAdjacentCells(r, c)`
terminates: it returns for every recursion budget above the number of unopened cells (so no
chain of nested calls is longer than that number plus one), with the same board for every
such budget. The cells on which a recursive call is made are pairwise distinct, each was
unopened before the call and is opened by it, and their number is at most the number of cells
that the call opens; the start cell is among them, and so expanded a second time, only if it
was unopened before the call. -/
theorem openAdjacentCells_terminates (rows cols : Nat) (b : Board) (r c : Nat)
    (hb : WF rows cols b) :
    (∀ fuel, unopenedCount b < fuel →
      ∃ b' calls, openAdjacentCells rows cols fuel b r c = some b' ∧
        openAdjacentCellsLog rows cols fuel (b, []) r c = some (b', calls) ∧
        calls.Nodup ∧ (∀ v ∈ calls, NewlyOpened b b' v) ∧
        calls.length + unopenedCount b' ≤ unopenedCount b ∧
        (OpenAt b (r, c) → (r, c) ∉ calls)) ∧
    (∀ fuel fuel', unopenedCount b < fuel → unopenedCount b < fuel' →
      openAdjacentCells rows cols fuel b r c = openAdjacentCells rows cols fuel' b r c) := by
  constructor
  · intro fuel hfuel
    obtain ⟨b', calls, h1, h2, hinv, _⟩ := openAdjacentCells_fill rows cols fuel b r c hb hfuel
    obtain ⟨_, _, hlen, hnd, _, ⟨new, hnew, hnewP⟩, _, _⟩ := hinv
    rw [List.nil_append] at hnew
    subst hnew
    refine ⟨b', calls, h1, h2, hnd, fun v hv => (hnewP v hv).1, by simpa using hlen, ?_⟩
    rintro ⟨y, hy, hyo⟩ hmem
    obtain ⟨cell, hcell, ho, _⟩ := (hnewP _ hmem).1
    rw [hy] at hcell
    cases hcell
    rw [ho] at hyo
    cases hyo
  · intro fuel fuel' hfuel hfuel'
    obtain ⟨b1, _, h1, _⟩ := openAdjacentCells_fill rows cols fuel b r c hb hfuel
    obtain ⟨b2, _, h2, _⟩ := openAdjacentCells_fill rows cols fuel' b r c hb hfuel'
    rcases Nat.le_total fuel fuel' with hle | hle
    · rw [h1, openAdjacentCells_fuel_le rows cols hle b r c b1 h1]
    · rw [h2, openAdjacentCells_fuel_le rows cols hle b r c b2 h2]

/-- Witness for C17, amended: the fill from the last cell of the row `[mine, 1, 0, 0]`. -/
theorem openAdjacentCells_terminates_witness :
    WF 1 4 rowBoard ∧
    (∀ fuel, unopenedCount rowBoard < fuel →
      ∃ b' calls, openAdjacentCells 1 4 fuel rowBoard 0 3 = some b' ∧
        openAdjacentCellsLog 1 4 fuel (rowBoard, []) 0 3 = some (b', calls) ∧
        calls.Nodup ∧ (∀ v ∈ calls, NewlyOpened rowBoard b' v) ∧
        calls.length + unopenedCount b' ≤ unopenedCount rowBoard ∧
        (OpenAt rowBoard (0, 3) → (0, 3) ∉ calls)) ∧
    (∀ fuel fuel', unopenedCount rowBoard < fuel → unopenedCount rowBoard < fuel' →
      openAdjacentCells 1 4 fuel rowBoard 0 3 = openAdjacentCells 1 4 fuel' rowBoard 0 3) :=
  ⟨by decide, openAdjacentCells_terminates 1 4 rowBoard 0 3 (by decide)⟩

/-- Counterexample to C17: on the row `[mine, 1, 0, 0]` with every cell unopened,
`openAdjacentCells(0, 3)` makes recursive calls on `(0, 2)` and, from there, on `(0, 3)`:
the start cell, expanded by the call itself, is expanded a second time, so the cells
expanded, `(0, 3), (0, 2), (0, 3)`, are not pairwise distinct. -/
theorem openAdjacentCells_expands_start_twice :
    openAdjacentCellsLog 1 4 5 (rowBoard, []) 0 3 =
      some ([[mineCell, { oneCell with opened := true }, { blankCell with opened := true },
              { blankCell with opened := true }]], [(0, 2), (0, 3)]) ∧
    ¬ ((0, 3) :: [(0, 2), (0, 3)] : List (Nat × Nat)).Nodup := by
  decide

/-! ## Mines and the flood fill -/

theorem minedNeighbours_congr {rows cols : Nat} {b b' : Board}
    (h : ∀ r c, mined b' r c = mined b r c) (r c : Nat) :
    minedNeighbours rows cols b' r c = minedNeighbours rows cols b r c := by
  unfold minedNeighbours
  simp only [h]

theorem mined_of_OpensOnly {b b' : Board} (h : OpensOnly b b') (r c : Nat) :
    mined b' r c = mined b r c := by
  unfold mined
  rcases h r c with h | ⟨y, hy, _, _, hget⟩
  · rw [h]
  · rw [hget, hy]

theorem Counted_of_OpensOnly {rows cols : Nat} {b b' : Board} (h : OpensOnly b b')
    (hc : Counted rows cols b) : Counted rows cols b' := by
  intro r c cell hcell hm
  rw [minedNeighbours_congr (mined_of_OpensOnly h) r c]
  rcases h r c with h | ⟨y, hy, _, _, hget⟩
  · exact hc r c cell (h ▸ hcell) hm
  · rw [hget] at hcell
    cases hcell
    exact hc r c y hy hm

/-- The board returned by `calculateAdjacentMines` carries the adjacency counts. -/
theorem Counted_of_calculateAdjacentMines {rows cols : Nat} {b b' : Board}
    (hb : WF rows cols b) (h : calculateAdjacentMines rows cols b = some b') :
    Counted rows cols b' := by
  obtain ⟨b'', h1, _, hcells⟩ := calculateAdjacentMines_cells rows cols b hb
  rw [h] at h1
  cases h1
  have hmined : ∀ r c, mined b' r c = mined b r c := by
    intro r c
    unfold mined
    rw [hcells]
    cases getCell b r c with
    | none => rfl
    | some cell => simp [withAdjacency_mine]
  intro r c cell hcell hm
  rw [minedNeighbours_congr hmined r c]
  rw [hcells] at hcell
  cases hy : getCell b r c with
  | none => rw [hy] at hcell; cases hcell
  | some y =>
    rw [hy] at hcell
    simp only [Option.map_some', Option.some.injEq] at hcell
    subst hcell
    have hym : y.mine = false := by rw [← withAdjacency_mine rows cols b r c y]; exact hm
    simp [withAdjacency, hym, countP_directions_eq]

theorem zero_no_mined_neighbour {rows cols : Nat} {b : Board} (hc : Counted rows cols b)
    {u v : Nat × Nat} {cell : Cell} (hcell : getCell b u.1 u.2 = some cell)
    (hm : cell.mine = false) (hz : cell.adjacentMines = 0) (hadj : Adjacent rows cols u v) :
    mined b v.1 v.2 = false := by
  have h0 : minedNeighbours rows cols b u.1 u.2 = 0 := by
    rw [← hc u.1 u.2 cell hcell hm, hz]
  rw [← countP_directions_eq, List.countP_eq_zero] at h0
  obtain ⟨d, hd, hg, hn⟩ := direction_of_adjacent (r := u.1) (c := u.2) hadj
  have := h0 d hd
  simp only [minedInDirection, hg, Bool.true_and] at this
  rw [← hn]
  simpa [neighbour] using this

theorem FillPath_not_mined {rows cols : Nat} {b : Board} (hc : Counted rows cols b)
    {start : Nat × Nat} {cell : Cell} (hcell : getCell b start.1 start.2 = some cell)
    (hm : cell.mine = false) (hz : cell.adjacentMines = 0) {v : Nat × Nat}
    (hp : FillPath rows cols b start v) :
    ∃ y, getCell b v.1 v.2 = some y ∧ y.mine = false := by
  induction hp with
  | first v hv hfv =>
    obtain ⟨y, hy, _, _⟩ := hfv
    have := zero_no_mined_neighbour hc hcell hm hz hv
    simp only [mined, hy] at this
    exact ⟨y, hy, this⟩
  | next u v _ hzu hv hfv ih =>
    obtain ⟨y, hy, _, _⟩ := hfv
    obtain ⟨cu, hcu, hcum⟩ := ih
    obtain ⟨cu', hcu', hcuz⟩ := hzu
    rw [hcu] at hcu'
    cases hcu'
    have := zero_no_mined_neighbour hc hcu hcum hcuz hv
    simp only [mined, hy] at this
    exact ⟨y, hy, this⟩

/-- A click on an unopened, unflagged cell that is not a mine while the session is in
progress, with the cells that it opens beyond the clicked one: they are the cells opened by
the fill, which is started only when the clicked cell has `adjacentMines == 0`. -/
theorem handleClick_safe_fill (s : State) (r c : Nat) (cell : Cell)
    (hb : WF s.rows s.cols s.board) (hover : s.gameOver = false) (hwon : s.gameWon = false)
    (hcell : getCell s.board r c = some cell) (ho : cell.opened = false)
    (hf : cell.flagged = false) (hm : cell.mine = false) :
    ∃ b' won, handleClick s r c = some { s with board := b', gameWon := won } ∧
      OpensOnly (modifyCell s.board r c (fun x => { x with opened := true })) b' ∧
      ∀ v, NewlyOpened (modifyCell s.board r c (fun x => { x with opened := true })) b' v →
        cell.adjacentMines = 0 ∧
        FillPath s.rows s.cols (modifyCell s.board r c (fun x => { x with opened := true }))
          (r, c) v := by
  have hb1 : WF s.rows s.cols (modifyCell s.board r c (fun x => { x with opened := true })) :=
    WF_modifyCell hb _ _ _
  have hfill : ∃ b', (if cell.adjacentMines = 0 then
        openAdjacentCells s.rows s.cols (s.rows * s.cols + 1)
          (modifyCell s.board r c (fun x => { x with opened := true })) r c
      else some (modifyCell s.board r c (fun x => { x with opened := true }))) = some b' ∧
      WF s.rows s.cols b' ∧
      OpensOnly (modifyCell s.board r c (fun x => { x with opened := true })) b' ∧
      ∀ v, NewlyOpened (modifyCell s.board r c (fun x => { x with opened := true })) b' v →
        cell.adjacentMines = 0 ∧
        FillPath s.rows s.cols (modifyCell s.board r c (fun x => { x with opened := true }))
          (r, c) v := by
    by_cases hz : cell.adjacentMines = 0
    · have hle := countCells_le (fun x => !x.opened) hb1
      obtain ⟨b', _, h1, _, hinv, _⟩ := openAdjacentCells_fill s.rows s.cols
        (s.rows * s.cols + 1) (modifyCell s.board r c (fun x => { x with opened := true })) r c
        hb1 (Nat.lt_succ_of_le hle)
      exact ⟨b', by simp [hz, h1], hinv.1, hinv.2.1, fun v hv => ⟨hz, hinv.2.2.2.2.2.2.2 v hv⟩⟩
    · exact ⟨_, by simp [hz], hb1, OpensOnly_refl _,
        fun v hv => absurd hv (not_NewlyOpened_self _ v)⟩
  obtain ⟨b', h1, h2, h3, h4⟩ := hfill
  obtain ⟨s', k1, k2, k3, k4, k5, k6, k7, k8, k9, _⟩ :=
    checkWinCondition_spec { s with board := b' } h2
  refine ⟨b', s'.gameWon, ?_, h3, h4⟩
  have hs' : s' = { s with board := b', gameWon := s'.gameWon } := by
    cases s'
    simp_all
  rw [← hs']
  simp only [handleClick, hover, hwon, hcell, ho, hf, hm, Bool.or_self, Bool.false_eq_true,
    if_false, h1]
  simp only [hover, hwon] at k1
  exact k1

/-- C18: on a board whose non-mine cells carry the adjacency counts of
`calculateAdjacentMines`, in a session in progress, `handleClick` on an unopened, unflagged
cell that is not a mine returns a session in which every mined cell that was unopened is
unchanged, hence unopened: the fill tests only `adjacentMines`, but it never reaches a
mine. -/
theorem handleClick_never_opens_mine (s : State) (r c : Nat) (cell : Cell)
    (hb : WF s.rows s.cols s.board) (hcount : Counted s.rows s.cols s.board)
    (hover : s.gameOver = false) (hwon : s.gameWon = false)
    (hcell : getCell s.board r c = some cell) (ho : cell.opened = false)
    (hf : cell.flagged = false) (hm : cell.mine = false) :
    ∃ s', handleClick s r c = some s' ∧
      ∀ r' c' x, getCell s.board r' c' = some x → x.mine = true → x.opened = false →
        getCell s'.board r' c' = some x := by
  obtain ⟨b', won, h1, h2, h3⟩ := handleClick_safe_fill s r c cell hb hover hwon hcell ho hf hm
  refine ⟨_, h1, fun r' c' x hx hxm hxo => ?_⟩
  have hstep := OpensOnly_modifyCell hcell ho hf
  have hcount1 := Counted_of_OpensOnly hstep hcount
  have hx1 : getCell (modifyCell s.board r c (fun y => { y with opened := true })) r' c' =
      some x := by
    rw [getCell_modifyCell]
    split
    · next hrc =>
      obtain ⟨rfl, rfl⟩ := hrc
      rw [hcell] at hx
      cases hx
      rw [hm] at hxm
      cases hxm
    · exact hx
  show getCell b' r' c' = some x
  rcases h2 r' c' with h | ⟨y, hy, hyo, _, hget⟩
  · rw [h, hx1]
  · have hnew : NewlyOpened (modifyCell s.board r c (fun y => { y with opened := true })) b'
        (r', c') := ⟨y, hy, hyo, hget⟩
    obtain ⟨hz, hpath⟩ := h3 (r', c') hnew
    have hstart : getCell (modifyCell s.board r c (fun y => { y with opened := true }))
        (r, c).1 (r, c).2 = some { cell with opened := true } :=
      getCell_modifyCell_self _ hcell
    obtain ⟨z, hz1, hzm⟩ := FillPath_not_mined hcount1 hstart hm hz hpath
    rw [hx1] at hz1
    cases hz1
    rw [hxm] at hzm
    cases hzm

/-- Witness for C18: a click on the last cell of the row `[mine, 1, 0, 0]`, whose counts are
those computed by `calculateAdjacentMines`. -/
theorem handleClick_never_opens_mine_witness :
    WF rowSession.rows rowSession.cols rowSession.board ∧
    Counted rowSession.rows rowSession.cols rowSession.board ∧
    getCell rowSession.board 0 3 = some blankCell ∧
    ∃ s', handleClick rowSession 0 3 = some s' ∧
      ∀ r' c' x, getCell rowSession.board r' c' = some x → x.mine = true →
        x.opened = false → getCell s'.board r' c' = some x :=
  have hcounted : Counted 1 4 rowBoard :=
    Counted_of_calculateAdjacentMines (b := rawRowBoard) (by decide) (by decide)
  ⟨by decide, hcounted, by decide,
    handleClick_never_opens_mine rowSession 0 3 blankCell (by decide) hcounted (by decide)
      (by decide) (by decide) (by decide) (by decide) (by decide)⟩

/-- The click of the witness of C18 evaluated: the three non-mine cells are opened, the mine
is not, and the session is won. -/
theorem handleClick_rowSession :
    handleClick rowSession 0 3 =
      some { rowSession with
        board := [[mineCell, { oneCell with opened := true },
                   { blankCell with opened := true }, { blankCell with opened := true }]],
        gameWon := true } := by
  decide

/-! ## Tags and reveals -/

theorem getCell_untagBoard (b : Board) (r c : Nat) :
    getCell (untagBoard b) r c = (getCell b r c).map untag := by
  unfold getCell untagBoard
  rw [List.getElem?_map]
  cases b[r]? with
  | none => rfl
  | some row => simp [List.getElem?_map]

theorem modifyCell_untagBoard (b : Board) (r c : Nat) (f : Cell → Cell)
    (hf : ∀ x, untag (f x) = f (untag x)) :
    modifyCell (untagBoard b) r c f = untagBoard (modifyCell b r c f) := by
  unfold modifyCell untagBoard
  rw [List.getElem?_map]
  cases b[r]? with
  | none => rfl
  | some row =>
    simp only [Option.map_some', List.getElem?_map]
    cases row[c]? with
    | none => rfl
    | some cell =>
      simp only [Option.map_some']
      rw [List.map_set, List.map_set, hf]

theorem modifyCell_open_untagBoard (b : Board) (r c : Nat) :
    modifyCell (untagBoard b) r c (fun x => { x with opened := true }) =
      untagBoard (modifyCell b r c (fun x => { x with opened := true })) :=
  modifyCell_untagBoard b r c (fun x => { x with opened := true }) (fun _ => rfl)

theorem forRange_map_comm {σ τ : Type} (p : σ → τ) (n : Nat) (f : Nat → σ → Option σ)
    (g : Nat → τ → Option τ) (h : ∀ i s, (f i s).map p = g i (p s)) (s : σ) :
    (forRange n f s).map p = forRange n g (p s) := by
  unfold forRange
  exact foldlM_map_comm p _ _ _ (fun s i _ => h i s) s

theorem openAdjacentCells_untag (rows cols : Nat) (fuel : Nat) :
    ∀ (b : Board) (r c : Nat),
      (openAdjacentCells rows cols fuel b r c).map untagBoard =
        openAdjacentCells rows cols fuel (untagBoard b) r c := by
  induction fuel with
  | zero => intro b r c; rfl
  | succ fuel ih =>
    intro b r c
    unfold openAdjacentCells
    apply foldlM_map_comm
    intro x d _
    by_cases hg : inGrid rows cols (r + d.1) (c + d.2) = true
    · simp only [hg, if_true, getCell_untagBoard]
      cases hcell : getCell x ((r : Int) + d.1).toNat ((c : Int) + d.2).toNat with
      | none => rfl
      | some cell =>
        simp only [Option.map_some']
        have e1 : (untag cell).opened = cell.opened := rfl
        have e2 : (untag cell).flagged = cell.flagged := rfl
        have e3 : (untag cell).adjacentMines = cell.adjacentMines := rfl
        rw [e1, e2, e3]
        by_cases hop : (!cell.opened && !cell.flagged) = true
        · simp only [hop, if_true]
          by_cases hz : cell.adjacentMines = 0
          · simp only [hz, if_true]
            rw [modifyCell_open_untagBoard]
            exact ih _ _ _
          · simp only [hz, if_false, Option.map_some']
            rw [modifyCell_open_untagBoard]
        · simp only [hop, Bool.false_eq_true, if_false, Option.map_some']
    · simp only [hg, Bool.false_eq_true, if_false, Option.map_some']

theorem revealAllMines_untag (rows cols : Nat) (b : Board) :
    (revealAllMines rows cols b).map untagBoard = revealAllMines rows cols (untagBoard b) := by
  unfold revealAllMines
  apply forRange_map_comm
  intro r x
  apply forRange_map_comm
  intro c y
  unfold revealAllMinesAt
  rw [getCell_untagBoard]
  cases hcell : getCell y r c with
  | none => rfl
  | some cell =>
    simp only [Option.map_some']
    have e1 : (untag cell).mine = cell.mine := rfl
    rw [e1]
    by_cases hm : cell.mine = true
    · simp only [hm, if_true, Option.map_some']
      rw [modifyCell_open_untagBoard]
    · simp only [hm, Bool.false_eq_true, if_false, Option.map_some']

theorem checkWinAt_untag (b : Board) (r c : Nat) (ok : Bool) :
    checkWinAt (untagBoard b) r c ok = checkWinAt b r c ok := by
  unfold checkWinAt
  rw [getCell_untagBoard]
  cases getCell b r c with
  | none => rfl
  | some cell => rfl

theorem allNonMinesOpened_untag (rows cols : Nat) (b : Board) :
    allNonMinesOpened rows cols (untagBoard b) = allNonMinesOpened rows cols b := by
  unfold allNonMinesOpened
  simp only [checkWinAt_untag]

theorem checkWinCondition_untag (s : State) :
    (checkWinCondition s).map untagState = checkWinCondition (untagState s) := by
  unfold checkWinCondition
  have : allNonMinesOpened (untagState s).rows (untagState s).cols (untagState s).board =
      allNonMinesOpened s.rows s.cols s.board := allNonMinesOpened_untag _ _ _
  rw [this]
  cases allNonMinesOpened s.rows s.cols s.board with
  | none => rfl
  | some ok => cases ok <;> rfl

/-- Erasing the tags commutes with `handleClick`: the function never reads `tagged` or
`tagsPlaced`. -/
theorem handleClick_untag (s : State) (r c : Nat) :
    (handleClick s r c).map untagState = handleClick (untagState s) r c := by
  unfold handleClick
  have e0 : (untagState s).gameOver = s.gameOver := rfl
  have e0' : (untagState s).gameWon = s.gameWon := rfl
  have eb : (untagState s).board = untagBoard s.board := rfl
  have er : (untagState s).rows = s.rows := rfl
  have ec : (untagState s).cols = s.cols := rfl
  rw [e0, e0', eb, er, ec, getCell_untagBoard]
  by_cases ht : (s.gameOver || s.gameWon) = true
  · simp only [ht, if_true, Option.map_some']
  · simp only [ht, Bool.false_eq_true, if_false]
    cases hcell : getCell s.board r c with
    | none => rfl
    | some cell =>
      simp only [Option.map_some']
      have e1 : (untag cell).opened = cell.opened := rfl
      have e2 : (untag cell).flagged = cell.flagged := rfl
      have e3 : (untag cell).mine = cell.mine := rfl
      have e4 : (untag cell).adjacentMines = cell.adjacentMines := rfl
      rw [e1, e2, e3, e4, modifyCell_open_untagBoard]
      by_cases hig : (cell.opened || cell.flagged) = true
      · simp only [hig, if_true, Option.map_some']
      · simp only [hig, Bool.false_eq_true, if_false]
        by_cases hm : cell.mine = true
        · simp only [hm, if_true]
          rw [← revealAllMines_untag]
          cases revealAllMines s.rows s.cols
              (modifyCell s.board r c (fun x => { x with opened := true })) with
          | none => rfl
          | some b => rfl
        · simp only [hm, Bool.false_eq_true, if_false]
          by_cases hz : cell.adjacentMines = 0
          · simp only [hz, if_true]
            rw [← openAdjacentCells_untag]
            cases openAdjacentCells s.rows s.cols (s.rows * s.cols + 1)
                (modifyCell s.board r c (fun x => { x with opened := true })) r c with
            | none => rfl
            | some b => exact checkWinCondition_untag { s with board := b }
          · simp only [hz, if_false]
            exact checkWinCondition_untag
              { s with board := modifyCell s.board r c (fun x => { x with opened := true }) }

theorem handleClick_opens_target (s : State) (r c : Nat) (cell : Cell)
    (hb : WF s.rows s.cols s.board) (hover : s.gameOver = false) (hwon : s.gameWon = false)
    (hcell : getCell s.board r c = some cell) (ho : cell.opened = false)
    (hf : cell.flagged = false) :
    ∃ s', handleClick s r c = some s' ∧ OpenAt s'.board (r, c) := by
  have hopen : OpenAt (modifyCell s.board r c (fun x => { x with opened := true })) (r, c) :=
    ⟨_, getCell_modifyCell_self _ hcell, rfl⟩
  cases hm : cell.mine with
  | true =>
    obtain ⟨b', h1, _, h3⟩ := handleClick_mine s r c cell hb hover hwon hcell ho hf hm
    refine ⟨_, h1, revealMine { cell with opened := true }, ?_, ?_⟩
    · show getCell b' r c = _
      rw [h3, getCell_modifyCell_self _ hcell]
      rfl
    · simp [revealMine]
  | false =>
    obtain ⟨b', won, h1, _, h3, _⟩ := handleClick_safe s r c cell hb hover hwon hcell ho hf hm
    exact ⟨_, h1, OpenAt_of_OpensOnly h3 hopen⟩

/-- C14: for two sessions in progress that are identical except for the `tagged` fields of
their cells and `tagsPlaced`, `handleClick(r, c)` at in-range coordinates returns two
sessions that agree on `gameOver`, `gameWon` and `flagsPlaced` and, cell by cell, on
`opened`, `flagged`, `mine` and `adjacentMines`; an unopened, unflagged target cell is
opened in both, tagged or not. -/
theorem handleClick_tag_blind (s1 s2 : State) (r c : Nat)
    (hb : WF s1.rows s1.cols s1.board) (hr : r < s1.rows) (hc : c < s1.cols)
    (hover : s1.gameOver = false) (hwon : s1.gameWon = false)
    (hsame : untagState s1 = untagState s2) :
    ∃ s1' s2', handleClick s1 r c = some s1' ∧ handleClick s2 r c = some s2' ∧
      s1'.gameOver = s2'.gameOver ∧ s1'.gameWon = s2'.gameWon ∧
      s1'.flagsPlaced = s2'.flagsPlaced ∧
      (∀ r' c', (getCell s1'.board r' c' = none ∧ getCell s2'.board r' c' = none) ∨
        ∃ x1 x2, getCell s1'.board r' c' = some x1 ∧ getCell s2'.board r' c' = some x2 ∧
          x1.opened = x2.opened ∧ x1.flagged = x2.flagged ∧ x1.mine = x2.mine ∧
          x1.adjacentMines = x2.adjacentMines) ∧
      (∀ cell, getCell s1.board r c = some cell → cell.opened = false →
        cell.flagged = false →
        ∃ x1 x2, getCell s1'.board r c = some x1 ∧ getCell s2'.board r c = some x2 ∧
          x1.opened = true ∧ x2.opened = true) := by
  obtain ⟨s1', h1, _⟩ := handleClick_total s1 r c hb hr hc
  have h2 : (handleClick s2 r c).map untagState = some (untagState s1') := by
    rw [handleClick_untag, ← hsame, ← handleClick_untag, h1]
    rfl
  cases hs2 : handleClick s2 r c with
  | none => rw [hs2] at h2; cases h2
  | some s2' =>
    rw [hs2] at h2
    simp only [Option.map_some', Option.some.injEq] at h2
    have hcells : ∀ r' c', (getCell s1'.board r' c' = none ∧ getCell s2'.board r' c' = none) ∨
        ∃ x1 x2, getCell s1'.board r' c' = some x1 ∧ getCell s2'.board r' c' = some x2 ∧
          x1.opened = x2.opened ∧ x1.flagged = x2.flagged ∧ x1.mine = x2.mine ∧
          x1.adjacentMines = x2.adjacentMines := by
      intro r' c'
      have hboard : untagBoard s2'.board = untagBoard s1'.board := congrArg State.board h2
      have hget := congrArg (fun b => getCell b r' c') hboard
      simp only [getCell_untagBoard] at hget
      cases hx1 : getCell s1'.board r' c' with
      | none =>
        rw [hx1] at hget
        cases hx2 : getCell s2'.board r' c' with
        | none => exact Or.inl ⟨rfl, rfl⟩
        | some x2 => rw [hx2] at hget; cases hget
      | some x1 =>
        rw [hx1] at hget
        cases hx2 : getCell s2'.board r' c' with
        | none => rw [hx2] at hget; cases hget
        | some x2 =>
          rw [hx2] at hget
          simp only [Option.map_some', Option.some.injEq] at hget
          exact Or.inr ⟨x1, x2, rfl, rfl, (congrArg Cell.opened hget).symm,
            (congrArg Cell.flagged hget).symm, (congrArg Cell.mine hget).symm,
            (congrArg Cell.adjacentMines hget).symm⟩
    refine ⟨s1', s2', h1, rfl, (congrArg State.gameOver h2).symm,
      (congrArg State.gameWon h2).symm, (congrArg State.flagsPlaced h2).symm, hcells, ?_⟩
    intro cell hcell ho hf
    obtain ⟨s1'', k1, y, hy, hyo⟩ := handleClick_opens_target s1 r c cell hb hover hwon hcell ho hf
    rw [h1] at k1
    cases k1
    rcases hcells r c with ⟨hnone, _⟩ | ⟨x1, x2, hx1, hx2, hopen, _⟩
    · rw [hy] at hnone
      cases hnone
    · rw [hy] at hx1
      cases hx1
      exact ⟨y, x2, hy, hx2, hyo, by rw [← hopen]; exact hyo⟩

/-- Witness for C14: the row `[mine, 1, 0, 0]` with and without tags on its two blank cells,
clicked on its last cell. -/
theorem handleClick_tag_blind_witness :
    WF rowSession.rows rowSession.cols rowSession.board ∧
    untagState rowSession = untagState taggedRowSession ∧
    ∃ s1' s2', handleClick rowSession 0 3 = some s1' ∧
      handleClick taggedRowSession 0 3 = some s2' ∧
      s1'.gameOver = s2'.gameOver ∧ s1'.gameWon = s2'.gameWon ∧
      s1'.flagsPlaced = s2'.flagsPlaced ∧
      (∀ r' c', (getCell s1'.board r' c' = none ∧ getCell s2'.board r' c' = none) ∨
        ∃ x1 x2, getCell s1'.board r' c' = some x1 ∧ getCell s2'.board r' c' = some x2 ∧
          x1.opened = x2.opened ∧ x1.flagged = x2.flagged ∧ x1.mine = x2.mine ∧
          x1.adjacentMines = x2.adjacentMines) ∧
      (∀ cell, getCell rowSession.board 0 3 = some cell → cell.opened = false →
        cell.flagged = false →
        ∃ x1 x2, getCell s1'.board 0 3 = some x1 ∧ getCell s2'.board 0 3 = some x2 ∧
          x1.opened = true ∧ x2.opened = true) :=
  ⟨by decide, by decide,
    handleClick_tag_blind rowSession taggedRowSession 0 3 (by decide) (by decide) (by decide)
      (by decide) (by decide) (by decide)⟩

/-- The tagged session of the witness of C14 evaluated: the tagged cells are opened by the
click and by the fill, keep their tags, and the session is won. -/
theorem handleClick_taggedRowSession :
    handleClick taggedRowSession 0 3 =
      some { taggedRowSession with
        board := [[mineCell, { oneCell with opened := true },
                   { blankCell with tagged := true, opened := true },
                   { blankCell with tagged := true, opened := true }]],
        gameWon := true } := by
  decide

end Minesweeper
